import Mathlib

/-!
Verification of the core algorithms of the `texture-atlas-generator` Blender
add-on (`texture-atlas-generator.py`).

The development shallowly embeds the two algorithmic components of the add-on:

* sequence discovery (`discover_image_sequences_in_folder`, lines 82-106, its
  caching wrapper `get_image_sequences_in_folder`, lines 61-79, and the regex
  `r_last_numerical = (\d+)\D*$`, line 53), and
* atlas compositing (the body of
  `TEXTURE_ATLAS_GENERATOR_OT_generate_texture_atlas.execute`, lines 288-350,
  together with the derived row count
  `TEXTURE_ATLAS_GENERATOR_Properties.row_count_get`, lines 167-168).

Modelling conventions:

* Python strings are modelled as `List Char`; `\d` of the regex and `int(...)`
  are modelled over ASCII decimal digits via `Char.isDigit`.
* Python `dict` (insertion ordered, unique keys) is modelled as an association
  list; appending a member to an existing key and adding a fresh key at the end
  mirror lines 101-104.
* Pixel components are Python floats that the code only ever copies and
  initializes (never does arithmetic on); they are modelled as `ℚ`.
* Python list slice assignment `dst[x1:x2] = src` with `x2 - x1 = len(src)`
  is modelled by `writeSlice` (take/append/drop), which agrees with Python's
  clamping semantics for every `x1`.
* A `None`-match crash (`match.start(1)` raised on a filename without digits,
  line 98) is modelled by `Except.error ()`.
-/

abbrev Pixels := List ℚ

abbrev FileName := List Char

/-- Grouping result of discovery: mask ↦ list of (frame, filename) members,
in insertion order, mirroring the Python dict of lines 91-104. -/
abbrev Groups := List (FileName × List (Nat × FileName))

/-- Semantics of `search(r_last_numerical, file)` with
`r_last_numerical = (\d+)\D*$` (line 53): split `f` into
`(prefix, digit-run, suffix)` where the suffix is the maximal run of trailing
non-digits and the digit run is the maximal digit run directly before it
(empty when the filename has no digits, i.e. when the regex does not match). -/
def splitLastRun (f : FileName) : FileName × FileName × FileName :=
  let r := f.reverse
  let sufR := r.takeWhile (fun c => ¬ c.isDigit)
  let digR := (r.drop sufR.length).takeWhile (fun c => c.isDigit)
  let preR := r.drop (sufR.length + digR.length)
  (preR.reverse, digR.reverse, sufR.reverse)

/-- Semantics of Python `int(...)` on a string of decimal digits. -/
def digitsToNat (l : List Char) : Nat :=
  l.foldl (fun a c => a * 10 + (c.toNat - 48)) 0

/-- The mask of line 98: filename with the matched digit run replaced by `'#'`. -/
def maskOf (f : FileName) : FileName :=
  let (pre, _, suf) := splitLastRun f
  pre ++ ['#'] ++ suf

/-- The frame number of line 99: integer value of the matched digit run. -/
def frameOf (f : FileName) : Nat :=
  digitsToNat (splitLastRun f).2.1

/-- Dict update of lines 101-104: append the member when the mask is already a
key, otherwise add a new singleton group at the end (dict insertion order). -/
def insertSeq (g : Groups) (m : FileName) (e : Nat × FileName) : Groups :=
  match g with
  | [] => [(m, [e])]
  | (m', l) :: rest =>
    if m' = m then (m', l ++ [e]) :: rest else (m', l) :: insertSeq rest m e

/-- Dict lookup: members stored for mask `m` (`[]` when `m` is not a key). -/
def findMembers (g : Groups) (m : FileName) : List (Nat × FileName) :=
  match g with
  | [] => []
  | (m', l) :: rest => if m' = m then l else findMembers rest m

/-- The keys of the grouping dict. -/
def keysOf (g : Groups) : List FileName :=
  g.map Prod.fst

/-- One iteration of the loop of lines 96-104: match the regex against the
filename; with no match (`None`), accessing `match.start(1)` raises, modelled
as `Except.error ()`; otherwise insert `(frame, file)` under the mask. -/
def processFile (g : Groups) (f : FileName) : Except Unit Groups :=
  let (pre, dig, suf) := splitLastRun f
  if dig = [] then Except.error ()
  else Except.ok (insertSeq g (pre ++ ['#'] ++ suf) (digitsToNat dig, f))

/-- The loop of lines 96-104 over the directory listing. -/
def discoverAux (g : Groups) (files : List FileName) : Except Unit Groups :=
  match files with
  | [] => Except.ok g
  | f :: fs =>
    match processFile g f with
    | Except.error e => Except.error e
    | Except.ok g' => discoverAux g' fs

/-- Model of `discover_image_sequences_in_folder` restricted to its grouping loop
(lines 96-104), taking the already-listed regular files of the folder. -/
def discoverFiles (files : List FileName) : Except Unit Groups :=
  discoverAux [] files

/-- Python `str.strip()`: drop whitespace from both ends. -/
def stripStr (s : FileName) : FileName :=
  ((s.dropWhile Char.isWhitespace).reverse.dropWhile Char.isWhitespace).reverse

/-- Model of `discover_image_sequences_in_folder(path)` (lines 82-106).  The filesystem
collaborator `fsys` maps a directory path to its list of regular files
(`none` when `isdir` is false); `isdir`/`listdir`/`isfile` of line 94-95 are
absorbed into it.  A non-directory yields the empty grouping (line 91/106). -/
def discoverInFolder (fsys : FileName → Option (List FileName)) (path : FileName) :
    Except Unit Groups :=
  match fsys (stripStr path) with
  | none => Except.ok []
  | some files => discoverFiles files

/-- The three module-level cache globals of lines 56-58:
`cached_image_sequences`, `cached_image_sequences_path` (initially `None`,
hence an `Option`), `cached_image_sequences_dirty`. -/
structure CacheState where
  seqs : Groups
  cachedPath : Option FileName
  dirty : Bool
deriving DecidableEq

/-- Model of `get_image_sequences_in_folder(path)` (lines 61-79) as a state
transformer: re-scan (and overwrite the single cache slot, clearing the dirty
flag) exactly when the path differs from the cached one or the dirty flag is
set; otherwise return the memoized grouping unchanged.  When the re-scan
raises (see `processFile`) the globals are not assigned, so the state is
unchanged and the error propagates. -/
def getImageSequencesInFolder (fsys : FileName → Option (List FileName))
    (st : CacheState) (path : FileName) : Except Unit (Groups × CacheState) :=
  if some path ≠ st.cachedPath ∨ st.dirty = true then
    match discoverInFolder fsys path with
    | Except.error e => Except.error e
    | Except.ok g => Except.ok (g, ⟨g, some path, false⟩)
  else
    Except.ok (st.seqs, st)

/-- An in-memory image as the compositor sees it: `img.size[0]`,
`img.size[1]`, and `img.pixels` (sequential R,G,B,A components, row-major from
the bottom row). -/
structure SourceImage where
  width : Nat
  height : Nat
  pixels : Pixels
deriving DecidableEq

/-- The `row_order` enum property (lines 176-184). -/
inductive RowOrder where
  | topToBottom
  | bottomToTop
deriving DecidableEq

/-- Model of `max_size[0]` of lines 306-310: fold of the conditional update
`img.size[0] if img.size[0] > max_size[0] else max_size[0]` starting from 0. -/
def maxWidth (imgs : List SourceImage) : Nat :=
  imgs.foldl (fun m img => if img.width > m then img.width else m) 0

/-- Model of `max_size[1]` of lines 306-310. -/
def maxHeight (imgs : List SourceImage) : Nat :=
  imgs.foldl (fun m img => if img.height > m then img.height else m) 0

/-- Model of `row_count_get` (lines 167-168): `ceil(image_count / column_count)`,
expressed over naturals; for `colC ≥ 1` this equals the mathematical ceiling
of `n / colC` (proved in `rowCountOf_eq_ceil`). -/
def rowCountOf (n colC : Nat) : Nat :=
  (n + colC - 1) / colC

/-- Line 333: destination row index counted from the bottom. -/
def rowIndexOf (order : RowOrder) (rowCount colC i : Nat) : Nat :=
  match order with
  | RowOrder.topToBottom => rowCount - 1 - i / colC
  | RowOrder.bottomToTop => i / colC

/-- Line 334: destination column index. -/
def columnIndexOf (colC i : Nat) : Nat :=
  i % colC

/-- Python slice assignment `dst[start : start + len(src)] = src`
(line 348); agrees with Python's clamping semantics for every `start`. -/
def writeSlice (dst : Pixels) (start : Nat) (src : Pixels) : Pixels :=
  dst.take start ++ src ++ dst.drop (start + src.length)

/-- Python slice read `l[x1:x2]` (right-hand side of line 348). -/
def sliceOf (l : Pixels) (x1 x2 : Nat) : Pixels :=
  (l.drop x1).take (x2 - x1)

/-- Lines 343-344: the component offset `tilemap_x1` of the destination line,
`(row_index * tilemap_w * tile_h + column_index * tile_w + y * tilemap_w) * 4`.
Note that the code uses the tile's own width and height here, not the cell
(maximum) dimensions. -/
def tileDestStart (tilemapW tileW tileH rowIdx colIdx y : Nat) : Nat :=
  (rowIdx * tilemapW * tileH + colIdx * tileW + y * tilemapW) * 4

/-- The inner loop of lines 336-348: copy every line `y` of the tile into the
tilemap buffer. -/
def copyTile (tilemapW : Nat) (img : SourceImage) (rowIdx colIdx : Nat)
    (buf : Pixels) : Pixels :=
  (List.range img.height).foldl
    (fun b y =>
      let tileX1 := y * img.width * 4
      let tileX2 := tileX1 + img.width * 4
      let destX1 := tileDestStart tilemapW img.width img.height rowIdx colIdx y
      writeSlice b destX1 (sliceOf img.pixels tileX1 tileX2))
    buf

/-- Line 325: `[0.0, 0.0, 0.0, 1.0] * (w * h)` — the background-initialized
destination buffer (opaque black), one R,G,B,A quadruple per pixel. -/
def backgroundPixels (count : Nat) : Pixels :=
  (List.replicate count ([0, 0, 0, 1] : Pixels)).flatten

/-- The outer loop of lines 326-348 over an explicit list of
(index, image) pairs. -/
def composeSteps (tilemapW rowCount colC : Nat) (order : RowOrder)
    (pairs : List (Nat × SourceImage)) (buf : Pixels) : Pixels :=
  pairs.foldl
    (fun b p =>
      copyTile tilemapW p.2 (rowIndexOf order rowCount colC p.1)
        (columnIndexOf colC p.1) b)
    buf

/-- The outer loop of lines 326-348: `for i in range(0, len(files))`. -/
def composeLoop (tilemapW rowCount colC : Nat) (order : RowOrder)
    (imgs : List SourceImage) (buf : Pixels) : Pixels :=
  composeSteps tilemapW rowCount colC order imgs.enum buf

/-- The compositing core of `execute` (lines 304-350): compute the maximum
tile size, the tilemap size (line 315), the background-initialized buffer
(line 325), and run the copy loop.  File loading, the Blender image data
block, the progress bar and the UI are external collaborators and are not
part of the pixel-level algorithm. -/
def compose (imgs : List SourceImage) (colC : Nat) (order : RowOrder) :
    SourceImage :=
  let cw := maxWidth imgs
  let ch := maxHeight imgs
  let rc := rowCountOf imgs.length colC
  let w := cw * colC
  let h := ch * rc
  ⟨w, h, composeLoop w rc colC order imgs (backgroundPixels (w * h))⟩

/-- The background value of component `s` of the buffer of line 325:
alpha components (index ≡ 3 mod 4) are 1, color components are 0. -/
def bgComp (s : Nat) : ℚ :=
  if s % 4 = 3 then 1 else 0

/-- Component index of component `s` of pixel `(x, y)` of cell `(rowIdx,
colIdx)` of a tilemap of width `tilemapW` whose cells are `cw × ch`. -/
def compIdx (tilemapW cw ch rowIdx colIdx y x s : Nat) : Nat :=
  4 * ((rowIdx * ch + y) * tilemapW + colIdx * cw + x) + s

/-- Whether every component of cell `(rowIdx, colIdx)` of the buffer still
holds the background value. -/
def cellIsBackground (pix : Pixels) (tilemapW cw ch rowIdx colIdx : Nat) : Bool :=
  (List.range ch).all fun y =>
    (List.range cw).all fun x =>
      (List.range 4).all fun s =>
        decide (pix.get? (compIdx tilemapW cw ch rowIdx colIdx y x s) = some (bgComp s))

/-- Number of grid cells of the tilemap that are entirely at the background
value. -/
def countBackgroundCells (pix : Pixels) (tilemapW cw ch rowCount colC : Nat) : Nat :=
  ((List.range rowCount).map fun r =>
    ((List.range colC).filter fun c => cellIsBackground pix tilemapW cw ch r c).length).sum

/-- Whether some image index `i < n` is assigned to grid cell `(r, c)` by the
index computation of lines 333-334. -/
def cellAssigned (order : RowOrder) (rowCount colC n r c : Nat) : Bool :=
  (List.range n).any fun i =>
    decide (rowIndexOf order rowCount colC i = r ∧ columnIndexOf colC i = c)

/-! ### List-level infrastructure -/

theorem writeSlice_length (b src : Pixels) (x1 : Nat)
    (h : x1 + src.length ≤ b.length) :
    (writeSlice b x1 src).length = b.length := by
  simp only [writeSlice, List.length_append, List.length_take, List.length_drop]
  omega

theorem writeSlice_get (b src : Pixels) (x1 j : Nat)
    (h : x1 + src.length ≤ b.length) :
    (writeSlice b x1 src).get? j =
      if x1 ≤ j ∧ j < x1 + src.length then src.get? (j - x1) else b.get? j := by
  have htk : (b.take x1).length = x1 := by simp; omega
  simp only [writeSlice, List.get?_eq_getElem?]
  rcases Nat.lt_or_ge j x1 with hj | hj
  · rw [if_neg (by omega)]
    rw [List.getElem?_append_left (by simp only [List.length_append, htk]; omega)]
    rw [List.getElem?_append_left (by omega)]
    exact List.getElem?_take_of_lt hj
  · rcases Nat.lt_or_ge j (x1 + src.length) with hj2 | hj2
    · rw [if_pos ⟨hj, hj2⟩]
      rw [List.getElem?_append_left (by simp only [List.length_append, htk]; omega)]
      rw [List.getElem?_append_right (by omega)]
      rw [htk]
    · rw [if_neg (by omega)]
      rw [List.getElem?_append_right (by simp only [List.length_append, htk]; omega)]
      rw [List.getElem?_drop]
      congr 1
      simp only [List.length_append, htk]
      omega

theorem sliceOf_length (l : Pixels) (x1 x2 : Nat) (h : x2 ≤ l.length) :
    (sliceOf l x1 x2).length = x2 - x1 := by
  simp only [sliceOf, List.length_take, List.length_drop]
  omega

theorem sliceOf_get (l : Pixels) (x1 x2 j : Nat) (h : j < x2 - x1) :
    (sliceOf l x1 x2).get? j = l.get? (x1 + j) := by
  simp only [sliceOf, List.get?_eq_getElem?]
  rw [List.getElem?_take_of_lt h, List.getElem?_drop]

theorem backgroundPixels_succ (k : Nat) :
    backgroundPixels (k + 1) = ([0, 0, 0, 1] : Pixels) ++ backgroundPixels k := rfl

theorem backgroundPixels_length (k : Nat) :
    (backgroundPixels k).length = 4 * k := by
  induction k with
  | zero => rfl
  | succ k ih =>
    rw [backgroundPixels_succ, List.length_append, ih]
    simp
    omega

theorem backgroundPixels_get (k j : Nat) (h : j < 4 * k) :
    (backgroundPixels k).get? j = some (bgComp (j % 4)) := by
  induction k generalizing j with
  | zero => omega
  | succ k ih =>
    rw [backgroundPixels_succ]
    rcases Nat.lt_or_ge j 4 with hj | hj
    · rw [List.get?_eq_getElem?, List.getElem?_append_left (by simpa using hj)]
      interval_cases j <;> rfl
    · rw [List.get?_eq_getElem?,
        List.getElem?_append_right (by simpa using hj)]
      have h2 := ih (j - 4) (by omega)
      rw [List.get?_eq_getElem?] at h2
      have h3 : j - ([0, 0, 0, 1] : Pixels).length = j - 4 := by simp
      rw [h3, h2]
      congr 2
      omega

/-! ### Arithmetic infrastructure -/

theorem rowcol_interval {w r1 c1 r2 c2 k : Nat} (hk : c1 + k ≤ w) (hc2 : c2 < w)
    (hlo : r1 * w + c1 ≤ r2 * w + c2) (hhi : r2 * w + c2 < r1 * w + c1 + k) :
    r1 = r2 ∧ c1 ≤ c2 ∧ c2 < c1 + k := by
  have hw : 0 < w := by omega
  have h1 : r2 * w < (r1 + 1) * w := by
    have : r2 * w + c2 < (r1 + 1) * w := by
      calc r2 * w + c2 < r1 * w + c1 + k := hhi
        _ ≤ r1 * w + w := by omega
        _ = (r1 + 1) * w := by ring
    omega
  have h2 : r1 * w < (r2 + 1) * w := by
    have : r1 * w + c1 < (r2 + 1) * w := by
      calc r1 * w + c1 ≤ r2 * w + c2 := hlo
        _ < r2 * w + w := by omega
        _ = (r2 + 1) * w := by ring
    omega
  have hr1 : r2 < r1 + 1 := Nat.lt_of_mul_lt_mul_right h1
  have hr2 : r1 < r2 + 1 := Nat.lt_of_mul_lt_mul_right h2
  have hr : r1 = r2 := by omega
  subst hr
  omega

theorem rowcol_eq {w r1 c1 r2 c2 : Nat} (hc1 : c1 < w) (hc2 : c2 < w)
    (h : r1 * w + c1 = r2 * w + c2) : r1 = r2 ∧ c1 = c2 := by
  have := @rowcol_interval w r1 c1 r2 c2 1 (by omega) hc2 (by omega) (by omega)
  omega

theorem le_rowCountOf_mul (n colC : Nat) (hc : 1 ≤ colC) :
    n ≤ rowCountOf n colC * colC := by
  have hdm := Nat.div_add_mod (n + colC - 1) colC
  have hm : (n + colC - 1) % colC < colC := Nat.mod_lt _ (by omega)
  unfold rowCountOf
  rw [Nat.mul_comm]
  omega

theorem rowCountOf_mul_lt (n colC : Nat) (hc : 1 ≤ colC) :
    rowCountOf n colC * colC < n + colC := by
  have := Nat.div_mul_le_self (n + colC - 1) colC
  unfold rowCountOf
  omega

theorem rowCountOf_pos (n colC : Nat) (hc : 1 ≤ colC) (hn : 1 ≤ n) :
    1 ≤ rowCountOf n colC := by
  unfold rowCountOf
  rw [Nat.le_div_iff_mul_le (by omega)]
  omega

theorem rowCountOf_eq_ceil (n colC : Nat) (hc : 1 ≤ colC) :
    (rowCountOf n colC : ℤ) = ⌈(n : ℚ) / (colC : ℚ)⌉ := by
  have hc0 : (0 : ℚ) < (colC : ℚ) := by exact_mod_cast hc
  have h1 : n ≤ rowCountOf n colC * colC := le_rowCountOf_mul n colC hc
  have h2 : rowCountOf n colC * colC < n + colC := rowCountOf_mul_lt n colC hc
  have h1q : (n : ℚ) ≤ (rowCountOf n colC : ℚ) * (colC : ℚ) := by exact_mod_cast h1
  have h2q : (rowCountOf n colC : ℚ) * (colC : ℚ) < (n : ℚ) + (colC : ℚ) := by
    exact_mod_cast h2
  symm
  rw [Int.ceil_eq_iff]
  refine ⟨?_, ?_⟩
  · push_cast
    rw [lt_div_iff₀ hc0]
    nlinarith
  · push_cast
    rw [div_le_iff₀ hc0]
    nlinarith

theorem rowIndexOf_lt (order : RowOrder) (n colC i : Nat) (hc : 1 ≤ colC)
    (hi : i < n) :
    rowIndexOf order (rowCountOf n colC) colC i < rowCountOf n colC := by
  have hrc : 1 ≤ rowCountOf n colC := rowCountOf_pos n colC hc (by omega)
  cases order with
  | topToBottom =>
    simp only [rowIndexOf]
    generalize i / colC = g
    omega
  | bottomToTop =>
    simp only [rowIndexOf]
    rw [Nat.div_lt_iff_lt_mul (by omega)]
    calc i < n := hi
      _ ≤ rowCountOf n colC * colC := le_rowCountOf_mul n colC hc

theorem columnIndexOf_lt (colC i : Nat) (hc : 1 ≤ colC) :
    columnIndexOf colC i < colC := Nat.mod_lt _ (by omega)

theorem assignment_injective (order : RowOrder) (n colC i i' : Nat)
    (hc : 1 ≤ colC) (hi : i < n) (hi' : i' < n)
    (hr : rowIndexOf order (rowCountOf n colC) colC i =
      rowIndexOf order (rowCountOf n colC) colC i')
    (hcol : columnIndexOf colC i = columnIndexOf colC i') : i = i' := by
  have hdiv : i / colC = i' / colC := by
    cases order with
    | topToBottom =>
      simp only [rowIndexOf] at hr
      have h1 : i / colC < rowCountOf n colC := by
        have := rowIndexOf_lt RowOrder.bottomToTop n colC i hc hi
        simpa [rowIndexOf] using this
      have h2 : i' / colC < rowCountOf n colC := by
        have := rowIndexOf_lt RowOrder.bottomToTop n colC i' hc hi'
        simpa [rowIndexOf] using this
      omega
    | bottomToTop =>
      simpa [rowIndexOf] using hr
  simp only [columnIndexOf] at hcol
  have d1 := Nat.div_add_mod i colC
  have d2 := Nat.div_add_mod i' colC
  rw [hdiv] at d1
  omega

theorem width_le_maxWidth (imgs : List SourceImage) (img : SourceImage)
    (h : img ∈ imgs) : img.width ≤ maxWidth imgs := by
  have step : ∀ (l : List SourceImage) (a : Nat),
      a ≤ l.foldl (fun m img => if img.width > m then img.width else m) a ∧
      ∀ x ∈ l, x.width ≤ l.foldl (fun m img => if img.width > m then img.width else m) a := by
    intro l
    induction l with
    | nil => intro a; exact ⟨Nat.le_refl _, by simp⟩
    | cons hd tl ih =>
      intro a
      constructor
      · calc a ≤ if hd.width > a then hd.width else a := by split <;> omega
          _ ≤ _ := (ih _).1
      · intro x hx
        rcases List.mem_cons.mp hx with rfl | hx
        · calc x.width ≤ if x.width > a then x.width else a := by split <;> omega
            _ ≤ _ := (ih _).1
        · exact (ih _).2 x hx
  exact (step imgs 0).2 img h

theorem height_le_maxHeight (imgs : List SourceImage) (img : SourceImage)
    (h : img ∈ imgs) : img.height ≤ maxHeight imgs := by
  have step : ∀ (l : List SourceImage) (a : Nat),
      a ≤ l.foldl (fun m img => if img.height > m then img.height else m) a ∧
      ∀ x ∈ l, x.height ≤ l.foldl (fun m img => if img.height > m then img.height else m) a := by
    intro l
    induction l with
    | nil => intro a; exact ⟨Nat.le_refl _, by simp⟩
    | cons hd tl ih =>
      intro a
      constructor
      · calc a ≤ if hd.height > a then hd.height else a := by split <;> omega
          _ ≤ _ := (ih _).1
      · intro x hx
        rcases List.mem_cons.mp hx with rfl | hx
        · calc x.height ≤ if x.height > a then x.height else a := by split <;> omega
            _ ≤ _ := (ih _).1
        · exact (ih _).2 x hx
  exact (step imgs 0).2 img h

theorem maxWidth_eq_foldl_max (imgs : List SourceImage) :
    maxWidth imgs = (imgs.map SourceImage.width).foldl Nat.max 0 := by
  have step : ∀ (l : List SourceImage) (a : Nat),
      l.foldl (fun m img => if img.width > m then img.width else m) a =
      (l.map SourceImage.width).foldl Nat.max a := by
    intro l
    induction l with
    | nil => intro a; rfl
    | cons hd tl ih =>
      intro a
      simp only [List.foldl_cons, List.map_cons]
      rw [ih]
      congr 1
      simp only [Nat.max_def]
      split <;> split <;> omega
  exact step imgs 0

theorem maxHeight_eq_foldl_max (imgs : List SourceImage) :
    maxHeight imgs = (imgs.map SourceImage.height).foldl Nat.max 0 := by
  have step : ∀ (l : List SourceImage) (a : Nat),
      l.foldl (fun m img => if img.height > m then img.height else m) a =
      (l.map SourceImage.height).foldl Nat.max a := by
    intro l
    induction l with
    | nil => intro a; rfl
    | cons hd tl ih =>
      intro a
      simp only [List.foldl_cons, List.map_cons]
      rw [ih]
      congr 1
      simp only [Nat.max_def]
      split <;> split <;> omega
  exact step imgs 0

/-! ### Bounds and length preservation of the copy loop -/

theorem sliceOf_length_le (l : Pixels) (x1 x2 : Nat) :
    (sliceOf l x1 x2).length ≤ x2 - x1 := by
  simp only [sliceOf, List.length_take, List.length_drop]
  omega

theorem tileDestStart_bound (cw ch colC rc tw th r c y : Nat)
    (hc : 1 ≤ colC) (htw : tw ≤ cw) (hth : th ≤ ch)
    (hr : r < rc) (hcc : c < colC) (hy : y < th) :
    tileDestStart (cw * colC) tw th r c y + tw * 4 ≤ cw * colC * (ch * rc) * 4 := by
  have key : r * (cw * colC) * th + c * tw + y * (cw * colC) + tw ≤
      cw * colC * (ch * rc) := by
    have h1 : r * (cw * colC) * th ≤ r * (cw * colC) * ch :=
      Nat.mul_le_mul_left _ hth
    have h2 : c * tw + tw ≤ colC * cw := by
      calc c * tw + tw = (c + 1) * tw := by ring
        _ ≤ colC * cw := Nat.mul_le_mul (by omega) htw
    have h3 : y * (cw * colC) + cw * colC ≤ ch * (cw * colC) := by
      calc y * (cw * colC) + cw * colC = (y + 1) * (cw * colC) := by ring
        _ ≤ ch * (cw * colC) := Nat.mul_le_mul_right _ (by omega)
    have h4 : r * (cw * colC) * ch + cw * colC * ch ≤ rc * (cw * colC * ch) := by
      calc r * (cw * colC) * ch + cw * colC * ch = (r + 1) * (cw * colC * ch) := by
            ring
        _ ≤ rc * (cw * colC * ch) := Nat.mul_le_mul_right _ (by omega)
    nlinarith [h1, h2, h3, h4]
  calc tileDestStart (cw * colC) tw th r c y + tw * 4 =
      (r * (cw * colC) * th + c * tw + y * (cw * colC) + tw) * 4 := by
        simp only [tileDestStart]; ring
    _ ≤ cw * colC * (ch * rc) * 4 := Nat.mul_le_mul_right _ key

theorem copyTile_length (tilemapW : Nat) (img : SourceImage) (r c lenL : Nat)
    (buf : Pixels) (hbuf : buf.length = lenL)
    (hbound : ∀ y, y < img.height →
      tileDestStart tilemapW img.width img.height r c y + img.width * 4 ≤ lenL) :
    (copyTile tilemapW img r c buf).length = lenL := by
  have main : ∀ hh, hh ≤ img.height → ∀ b : Pixels, b.length = lenL →
      ((List.range hh).foldl
        (fun b y =>
          writeSlice b (tileDestStart tilemapW img.width img.height r c y)
            (sliceOf img.pixels (y * img.width * 4)
              (y * img.width * 4 + img.width * 4))) b).length = lenL := by
    intro hh
    induction hh with
    | zero => intro _ b hb; simpa using hb
    | succ k ih =>
      intro hk b hb
      rw [List.range_succ, List.foldl_append]
      simp only [List.foldl_cons, List.foldl_nil]
      have hlen := ih (by omega) b hb
      rw [writeSlice_length _ _ _ ?_, hlen]
      have hs := sliceOf_length_le img.pixels (k * img.width * 4)
        (k * img.width * 4 + img.width * 4)
      have hb2 := hbound k (by omega)
      omega
  exact main img.height (Nat.le_refl _) buf hbuf

theorem composeSteps_length (tilemapW rc colC : Nat) (order : RowOrder)
    (pairs : List (Nat × SourceImage)) (lenL : Nat) (buf : Pixels)
    (hbuf : buf.length = lenL)
    (hb : ∀ p ∈ pairs, ∀ y, y < p.2.height →
      tileDestStart tilemapW p.2.width p.2.height
          (rowIndexOf order rc colC p.1) (columnIndexOf colC p.1) y +
        p.2.width * 4 ≤ lenL) :
    (composeSteps tilemapW rc colC order pairs buf).length = lenL := by
  induction pairs generalizing buf with
  | nil => simpa [composeSteps] using hbuf
  | cons p ps ih =>
    simp only [composeSteps, List.foldl_cons] at *
    apply ih
    · exact copyTile_length _ _ _ _ _ _ hbuf (hb p (List.mem_cons_self _ _))
    · intro q hq
      exact hb q (List.mem_cons_of_mem _ hq)

/-! ### Pointwise characterization of the copy loop (uniform tile sizes) -/

theorem compIdx_lt (cw ch colC rc R C y x s : Nat)
    (hR : R < rc) (hC : C < colC) (hy : y < ch) (hx : x < cw) (hs : s < 4) :
    compIdx (cw * colC) cw ch R C y x s < cw * colC * (ch * rc) * 4 := by
  have hrow : R * ch + y + 1 ≤ ch * rc := by
    calc R * ch + y + 1 ≤ R * ch + ch := by omega
      _ = (R + 1) * ch := by ring
      _ ≤ rc * ch := Nat.mul_le_mul_right _ (by omega)
      _ = ch * rc := Nat.mul_comm _ _
  have hA : (R * ch + y) * (cw * colC) + (C * cw + x) + 1 ≤ cw * colC * (ch * rc) := by
    have hcol : C * cw + x + 1 ≤ cw * colC := by
      calc C * cw + x + 1 ≤ C * cw + cw := by omega
        _ = (C + 1) * cw := by ring
        _ ≤ colC * cw := Nat.mul_le_mul_right _ (by omega)
        _ = cw * colC := Nat.mul_comm _ _
    calc (R * ch + y) * (cw * colC) + (C * cw + x) + 1
        ≤ (R * ch + y) * (cw * colC) + cw * colC := by omega
      _ = (R * ch + y + 1) * (cw * colC) := by ring
      _ ≤ ch * rc * (cw * colC) := Nat.mul_le_mul_right _ hrow
      _ = cw * colC * (ch * rc) := Nat.mul_comm _ _
  calc compIdx (cw * colC) cw ch R C y x s
      = 4 * ((R * ch + y) * (cw * colC) + (C * cw + x)) + s := by
        simp only [compIdx]; ring
    _ < (((R * ch + y) * (cw * colC) + (C * cw + x)) + 1) * 4 := by omega
    _ ≤ cw * colC * (ch * rc) * 4 := Nat.mul_le_mul_right _ hA

theorem compIdx_mod_four (tilemapW cw ch R C y x s : Nat) (hs : s < 4) :
    compIdx tilemapW cw ch R C y x s % 4 = s := by
  have h : compIdx tilemapW cw ch R C y x s =
      4 * ((R * ch + y) * tilemapW + C * cw + x) + s := by
    simp only [compIdx]
  rw [h, Nat.mul_add_mod]
  omega

theorem copyTile_get_uniform (cw ch colC rc : Nat) (img : SourceImage) (r c : Nat)
    (hw : img.width = cw) (hh : img.height = ch)
    (hpl : img.pixels.length = cw * ch * 4)
    (hr : r < rc) (hcc : c < colC)
    (buf : Pixels) (hbuf : buf.length = cw * colC * (ch * rc) * 4)
    (R C y x s : Nat) (hR : R < rc) (hC : C < colC) (hy : y < ch) (hx : x < cw)
    (hs : s < 4) :
    (copyTile (cw * colC) img r c buf).get? (compIdx (cw * colC) cw ch R C y x s) =
      if R = r ∧ C = c then img.pixels.get? ((y * cw + x) * 4 + s)
      else buf.get? (compIdx (cw * colC) cw ch R C y x s) := by
  subst hw hh
  have main : ∀ hh2, hh2 ≤ img.height → ∀ b : Pixels,
      b.length = img.width * colC * (img.height * rc) * 4 →
      ((List.range hh2).foldl
        (fun b y2 =>
          writeSlice b (tileDestStart (img.width * colC) img.width img.height r c y2)
            (sliceOf img.pixels (y2 * img.width * 4)
              (y2 * img.width * 4 + img.width * 4))) b).get?
          (compIdx (img.width * colC) img.width img.height R C y x s) =
        if R = r ∧ C = c ∧ y < hh2 then img.pixels.get? ((y * img.width + x) * 4 + s)
        else b.get? (compIdx (img.width * colC) img.width img.height R C y x s) := by
    intro hh2
    induction hh2 with
    | zero =>
      intro _ b _
      simp only [List.range_zero, List.foldl_nil]
      rw [if_neg (by omega)]
    | succ k ih =>
      intro hk b hb
      rw [List.range_succ, List.foldl_append]
      simp only [List.foldl_cons, List.foldl_nil]
      have hklt : k < img.height := by omega
      have hfl : ((List.range k).foldl
          (fun b y2 =>
            writeSlice b (tileDestStart (img.width * colC) img.width img.height r c y2)
              (sliceOf img.pixels (y2 * img.width * 4)
                (y2 * img.width * 4 + img.width * 4))) b).length =
          img.width * colC * (img.height * rc) * 4 := by
        have aux : ∀ hh3, hh3 ≤ img.height → ∀ b2 : Pixels,
            b2.length = img.width * colC * (img.height * rc) * 4 →
            ((List.range hh3).foldl
              (fun b y2 =>
                writeSlice b (tileDestStart (img.width * colC) img.width img.height r c y2)
                  (sliceOf img.pixels (y2 * img.width * 4)
                    (y2 * img.width * 4 + img.width * 4))) b2).length =
              img.width * colC * (img.height * rc) * 4 := by
          intro hh3
          induction hh3 with
          | zero => intro _ b2 hb2; simpa using hb2
          | succ k2 ih2 =>
            intro hk2 b2 hb2
            rw [List.range_succ, List.foldl_append]
            simp only [List.foldl_cons, List.foldl_nil]
            have hlen2 := ih2 (by omega) b2 hb2
            rw [writeSlice_length _ _ _ ?_, hlen2]
            have hsl := sliceOf_length_le img.pixels (k2 * img.width * 4)
              (k2 * img.width * 4 + img.width * 4)
            have hbd := tileDestStart_bound img.width img.height colC rc
              img.width img.height r c k2 (by omega) (Nat.le_refl _) (Nat.le_refl _)
              hr hcc (by omega)
            omega
        exact aux k (by omega) b hb
      have hslicelen : (sliceOf img.pixels (k * img.width * 4)
          (k * img.width * 4 + img.width * 4)).length = img.width * 4 := by
        rw [sliceOf_length]
        · omega
        · rw [hpl]
          have h1 : (k + 1) * img.width ≤ img.height * img.width :=
            Nat.mul_le_mul_right _ (by omega)
          calc k * img.width * 4 + img.width * 4 = (k + 1) * img.width * 4 := by ring
            _ ≤ img.height * img.width * 4 := Nat.mul_le_mul_right _ h1
            _ = img.width * img.height * 4 := by ring
      have hbd : tileDestStart (img.width * colC) img.width img.height r c k +
          img.width * 4 ≤ img.width * colC * (img.height * rc) * 4 :=
        tileDestStart_bound img.width img.height colC rc img.width img.height r c k
          (by omega) (Nat.le_refl _) (Nat.le_refl _) hr hcc hklt
      rw [writeSlice_get _ _ _ _ (by rw [hfl, hslicelen]; exact hbd)]
      have hdest : tileDestStart (img.width * colC) img.width img.height r c k =
          4 * ((r * img.height + k) * (img.width * colC) + c * img.width) := by
        simp only [tileDestStart]; ring
      have hidx : compIdx (img.width * colC) img.width img.height R C y x s =
          4 * ((R * img.height + y) * (img.width * colC) + C * img.width + x) + s := by
        simp only [compIdx]
      rw [hslicelen, hdest, hidx]
      by_cases hmem :
          4 * ((r * img.height + k) * (img.width * colC) + c * img.width) ≤
            4 * ((R * img.height + y) * (img.width * colC) + C * img.width + x) + s ∧
          4 * ((R * img.height + y) * (img.width * colC) + C * img.width + x) + s <
            4 * ((r * img.height + k) * (img.width * colC) + c * img.width) +
              img.width * 4
      · rw [if_pos hmem]
        have hBA : (r * img.height + k) * (img.width * colC) + c * img.width ≤
            (R * img.height + y) * (img.width * colC) + C * img.width + x ∧
            (R * img.height + y) * (img.width * colC) + C * img.width + x <
            (r * img.height + k) * (img.width * colC) + c * img.width + img.width := by
          obtain ⟨hm1, hm2⟩ := hmem
          generalize hp1 : (r * img.height + k) * (img.width * colC) = p1 at hm1 hm2 ⊢
          generalize hp2 : (R * img.height + y) * (img.width * colC) = p2 at hm1 hm2 ⊢
          generalize hp3 : c * img.width = p3 at hm1 hm2 ⊢
          generalize hp4 : C * img.width = p4 at hm1 hm2 ⊢
          omega
        have hfit : c * img.width + img.width ≤ img.width * colC := by
          calc c * img.width + img.width = (c + 1) * img.width := by ring
            _ ≤ colC * img.width := Nat.mul_le_mul_right _ (by omega)
            _ = img.width * colC := Nat.mul_comm _ _
        have hc2 : C * img.width + x < img.width * colC := by
          calc C * img.width + x < C * img.width + img.width := by omega
            _ = (C + 1) * img.width := by ring
            _ ≤ colC * img.width := Nat.mul_le_mul_right _ (by omega)
            _ = img.width * colC := Nat.mul_comm _ _
        have hrows := @rowcol_interval (img.width * colC)
          (r * img.height + k) (c * img.width)
          (R * img.height + y) (C * img.width + x) img.width
          hfit hc2 (by linarith [hBA.1]) (by linarith [hBA.2])
        have hRr : r = R ∧ k = y :=
          @rowcol_eq img.height r k R y hklt hy hrows.1
        have hCc : c = C := by
          have h2 := @rowcol_interval img.width c 0 C x img.width (by omega) hx
            (by simpa using hrows.2.1) (by simpa using hrows.2.2)
          exact h2.1
        obtain ⟨hr1, hk1⟩ := hRr
        rw [if_pos ⟨hr1.symm, hCc.symm, by omega⟩]
        have hoff : 4 * ((R * img.height + y) * (img.width * colC) + C * img.width + x) +
            s - 4 * ((r * img.height + k) * (img.width * colC) + c * img.width) =
            4 * x + s := by
          rw [hr1, hCc, hk1]
          generalize (R * img.height + y) * (img.width * colC) + C * img.width = q
          omega
        rw [hoff]
        rw [sliceOf_get _ _ _ _ (by
          generalize k * img.width * 4 = q
          omega)]
        congr 1
        rw [hk1]
        ring
      · rw [if_neg hmem]
        rw [← hidx]
        rw [ih (by omega) b hb]
        by_cases hcell : R = r ∧ C = c ∧ y < k + 1
        · have hylt : y < k := by
            rcases Nat.lt_or_ge y k with h | h
            · exact h
            · exfalso
              have hyk : y = k := by omega
              apply hmem
              obtain ⟨h1, h2, _⟩ := hcell
              rw [h1, h2, hyk]
              constructor
              · generalize (r * img.height + k) * (img.width * colC) = q
                omega
              · have hq : c * img.width + x < c * img.width + img.width := by omega
                generalize (r * img.height + k) * (img.width * colC) = q at *
                omega
          rw [if_pos ⟨hcell.1, hcell.2.1, hylt⟩, if_pos hcell]
        · have hnc : ¬(R = r ∧ C = c ∧ y < k) := by
            intro h; exact hcell ⟨h.1, h.2.1, by omega⟩
          rw [if_neg hnc, if_neg hcell]
  have hmain := main img.height (Nat.le_refl _) buf hbuf
  rw [show (copyTile (img.width * colC) img r c buf) =
      ((List.range img.height).foldl
        (fun b y2 =>
          writeSlice b (tileDestStart (img.width * colC) img.width img.height r c y2)
            (sliceOf img.pixels (y2 * img.width * 4)
              (y2 * img.width * 4 + img.width * 4))) buf) from rfl]
  rw [hmain]
  by_cases hcell : R = r ∧ C = c
  · rw [if_pos ⟨hcell.1, hcell.2, hy⟩, if_pos hcell]
  · have hnc : ¬(R = r ∧ C = c ∧ y < img.height) := by
      intro h; exact hcell ⟨h.1, h.2.1⟩
    rw [if_neg hnc, if_neg hcell]

theorem composeSteps_get_uniform (cw ch colC rc n : Nat) (order : RowOrder)
    (hrowlt : ∀ i, i < n → rowIndexOf order rc colC i < rc)
    (hcol1 : 1 ≤ colC)
    (hinj : ∀ i i', i < n → i' < n →
      rowIndexOf order rc colC i = rowIndexOf order rc colC i' →
      columnIndexOf colC i = columnIndexOf colC i' → i = i')
    (pairs : List (Nat × SourceImage))
    (hpair : ∀ p ∈ pairs, p.1 < n ∧ p.2.width = cw ∧ p.2.height = ch ∧
      p.2.pixels.length = cw * ch * 4)
    (hnd : pairs.Pairwise (fun a b => a.1 ≠ b.1))
    (buf : Pixels) (hbuf : buf.length = cw * colC * (ch * rc) * 4)
    (R C y x s : Nat) (hR : R < rc) (hC : C < colC) (hy : y < ch) (hx : x < cw)
    (hs : s < 4) :
    (∀ p ∈ pairs, rowIndexOf order rc colC p.1 = R → columnIndexOf colC p.1 = C →
      (composeSteps (cw * colC) rc colC order pairs buf).get?
          (compIdx (cw * colC) cw ch R C y x s) =
        p.2.pixels.get? ((y * cw + x) * 4 + s)) ∧
    ((∀ p ∈ pairs, ¬(rowIndexOf order rc colC p.1 = R ∧ columnIndexOf colC p.1 = C)) →
      (composeSteps (cw * colC) rc colC order pairs buf).get?
          (compIdx (cw * colC) cw ch R C y x s) =
        buf.get? (compIdx (cw * colC) cw ch R C y x s)) := by
  induction pairs generalizing buf with
  | nil =>
    constructor
    · intro p hp
      exact absurd hp (List.not_mem_nil p)
    · intro _
      simp [composeSteps]
  | cons p ps ih =>
    obtain ⟨hpn, hpw, hph, hppl⟩ := hpair p (List.mem_cons_self _ _)
    obtain ⟨hhead, htail⟩ := List.pairwise_cons.mp hnd
    have hrp : rowIndexOf order rc colC p.1 < rc := hrowlt p.1 hpn
    have hcp : columnIndexOf colC p.1 < colC := columnIndexOf_lt colC p.1 hcol1
    have hstep : composeSteps (cw * colC) rc colC order (p :: ps) buf =
        composeSteps (cw * colC) rc colC order ps
          (copyTile (cw * colC) p.2 (rowIndexOf order rc colC p.1)
            (columnIndexOf colC p.1) buf) := by
      simp [composeSteps]
    have hlenb : (copyTile (cw * colC) p.2 (rowIndexOf order rc colC p.1)
        (columnIndexOf colC p.1) buf).length = cw * colC * (ch * rc) * 4 := by
      apply copyTile_length _ _ _ _ _ _ hbuf
      intro y2 hy2
      rw [hpw, hph]
      rw [hph] at hy2
      exact tileDestStart_bound cw ch colC rc cw ch _ _ y2 hcol1 (Nat.le_refl _)
        (Nat.le_refl _) hrp hcp hy2
    have ihs := ih (fun q hq => hpair q (List.mem_cons_of_mem _ hq)) htail
      (copyTile (cw * colC) p.2 (rowIndexOf order rc colC p.1)
        (columnIndexOf colC p.1) buf) hlenb
    have hcopy := copyTile_get_uniform cw ch colC rc p.2
      (rowIndexOf order rc colC p.1) (columnIndexOf colC p.1) hpw hph hppl hrp hcp
      buf hbuf R C y x s hR hC hy hx hs
    constructor
    · intro q hq hqr hqc
      rcases List.mem_cons.mp hq with rfl | hq2
      · -- head: the tail never writes into this cell
        rw [hstep]
        rw [ihs.2 ?_]
        · rw [hcopy, if_pos ⟨hqr.symm, hqc.symm⟩]
        · intro q' hq' hass
          obtain ⟨hq'n, _, _, _⟩ := hpair q' (List.mem_cons_of_mem _ hq')
          have : q'.1 = q.1 := hinj q'.1 q.1 hq'n hpn
            (by rw [hass.1, hqr]) (by rw [hass.2, hqc])
          exact hhead q' hq' this.symm
      · rw [hstep]
        exact ihs.1 q hq2 hqr hqc
    · intro hnone
      rw [hstep]
      rw [ihs.2 (fun q hq => hnone q (List.mem_cons_of_mem _ hq))]
      rw [hcopy, if_neg ?_]
      intro hass
      exact hnone p (List.mem_cons_self _ _) ⟨hass.1.symm, hass.2.symm⟩

theorem enumFrom_pairwise_fst_lt {α : Type} (l : List α) (k : Nat) :
    (List.enumFrom k l).Pairwise (fun a b => a.1 < b.1) := by
  induction l generalizing k with
  | nil => simp
  | cons a l ih =>
    rw [List.enumFrom_cons]
    refine List.Pairwise.cons ?_ (ih (k + 1))
    intro b hb
    have hmem := List.mem_enumFrom hb
    simp only
    omega

theorem enum_pairwise_fst_ne (l : List SourceImage) :
    l.enum.Pairwise (fun a b => a.1 ≠ b.1) := by
  have h := enumFrom_pairwise_fst_lt l 0
  exact h.imp (fun hlt => Nat.ne_of_lt hlt)

theorem compose_get_uniform (imgs : List SourceImage) (colC : Nat)
    (order : RowOrder) (hc : 1 ≤ colC)
    (huni : ∀ img ∈ imgs, img.width = maxWidth imgs ∧ img.height = maxHeight imgs ∧
      img.pixels.length = maxWidth imgs * maxHeight imgs * 4)
    (R C y x s : Nat) (hR : R < rowCountOf imgs.length colC) (hC : C < colC)
    (hy : y < maxHeight imgs) (hx : x < maxWidth imgs) (hs : s < 4) :
    (∀ i, ∀ hi : i < imgs.length,
      rowIndexOf order (rowCountOf imgs.length colC) colC i = R →
      columnIndexOf colC i = C →
      (compose imgs colC order).pixels.get?
          (compIdx (maxWidth imgs * colC) (maxWidth imgs) (maxHeight imgs) R C y x s) =
        (imgs.get ⟨i, hi⟩).pixels.get? ((y * maxWidth imgs + x) * 4 + s)) ∧
    ((∀ i, i < imgs.length →
        ¬(rowIndexOf order (rowCountOf imgs.length colC) colC i = R ∧
          columnIndexOf colC i = C)) →
      (compose imgs colC order).pixels.get?
          (compIdx (maxWidth imgs * colC) (maxWidth imgs) (maxHeight imgs) R C y x s) =
        some (bgComp s)) := by
  have hcp : (compose imgs colC order).pixels =
      composeSteps (maxWidth imgs * colC) (rowCountOf imgs.length colC) colC order
        imgs.enum
        (backgroundPixels (maxWidth imgs * colC *
          (maxHeight imgs * rowCountOf imgs.length colC))) := rfl
  have hbuf : (backgroundPixels (maxWidth imgs * colC *
      (maxHeight imgs * rowCountOf imgs.length colC))).length =
      maxWidth imgs * colC * (maxHeight imgs * rowCountOf imgs.length colC) * 4 := by
    rw [backgroundPixels_length]; ring
  have hpair : ∀ p ∈ imgs.enum, p.1 < imgs.length ∧ p.2.width = maxWidth imgs ∧
      p.2.height = maxHeight imgs ∧
      p.2.pixels.length = maxWidth imgs * maxHeight imgs * 4 := by
    intro p hp
    have hg : imgs[p.1]? = some p.2 := List.mem_enum_iff_getElem?.mp hp
    have hlt : p.1 < imgs.length := by
      by_contra hcon
      rw [List.getElem?_eq_none (by omega)] at hg
      exact Option.noConfusion hg
    have hmem : p.2 ∈ imgs := by
      have := List.getElem?_eq_getElem hlt
      rw [this] at hg
      have heq : imgs[p.1] = p.2 := Option.some.inj hg
      rw [← heq]
      exact List.getElem_mem hlt
    exact ⟨hlt, huni p.2 hmem⟩
  have hmain := composeSteps_get_uniform (maxWidth imgs) (maxHeight imgs) colC
    (rowCountOf imgs.length colC) imgs.length order
    (fun i hi => rowIndexOf_lt order imgs.length colC i hc hi) hc
    (fun i i' hi hi' => assignment_injective order imgs.length colC i i' hc hi hi')
    imgs.enum hpair (enum_pairwise_fst_ne imgs) _ hbuf R C y x s hR hC hy hx hs
  constructor
  · intro i hi hri hci
    rw [hcp]
    have hmem : (i, imgs.get ⟨i, hi⟩) ∈ imgs.enum := by
      rw [List.mem_enum_iff_getElem?]
      simp [List.getElem?_eq_getElem hi]
    exact hmain.1 (i, imgs.get ⟨i, hi⟩) hmem hri hci
  · intro hnone
    rw [hcp]
    rw [hmain.2 ?_]
    · have hlt := compIdx_lt (maxWidth imgs) (maxHeight imgs) colC
        (rowCountOf imgs.length colC) R C y x s hR hC hy hx hs
      have h4 : maxWidth imgs * colC * (maxHeight imgs * rowCountOf imgs.length colC) * 4 =
          4 * (maxWidth imgs * colC * (maxHeight imgs * rowCountOf imgs.length colC)) := by
        ring
      rw [backgroundPixels_get _ _ (by omega)]
      rw [compIdx_mod_four _ _ _ _ _ _ _ _ hs]
    · intro p hp hass
      exact hnone p.1 (hpair p hp).1 hass

/-! ### Counting background cells -/

theorem filter_length_partition (l : List Nat) (p : Nat → Bool) :
    (l.filter p).length + (l.filter fun a => !(p a)).length = l.length := by
  induction l with
  | nil => rfl
  | cons a l ih =>
    by_cases h : p a = true
    · rw [List.filter_cons_of_pos h, List.filter_cons_of_neg (by simp [h])]
      simp only [List.length_cons]
      omega
    · rw [List.filter_cons_of_neg h, List.filter_cons_of_pos (by simp at h; simp [h])]
      simp only [List.length_cons]
      omega

theorem filter_extra_cell (c0 : Nat) (l : List Nat) (hnd : l.Nodup) (hmem : c0 ∈ l)
    (p q : Nat → Bool) (hq : ∀ C ∈ l, q C = (p C || decide (c0 = C)))
    (hp0 : p c0 = false) :
    (l.filter q).length = (l.filter p).length + 1 := by
  induction l with
  | nil => exact absurd hmem (List.not_mem_nil c0)
  | cons a l ih =>
    rw [List.nodup_cons] at hnd
    by_cases ha : c0 = a
    · subst ha
    -- head is the new cell
      have hqa : q c0 = true := by rw [hq c0 (List.mem_cons_self _ _), hp0]; simp
      rw [List.filter_cons_of_pos hqa, List.filter_cons_of_neg (by simp [hp0])]
      simp only [List.length_cons]
      have hcong : l.filter q = l.filter p := by
        apply List.filter_congr
        intro C hC
        have hne : c0 ≠ C := by
          intro h; rw [h] at hnd; exact hnd.1 hC
        rw [hq C (List.mem_cons_of_mem _ hC), decide_eq_false hne]
        simp
      rw [hcong]
    · have hmem2 : c0 ∈ l := by
        rcases List.mem_cons.mp hmem with h | h
        · exact absurd h ha
        · exact h
      have hqp : q a = p a := by
        rw [hq a (List.mem_cons_self _ _), decide_eq_false ha]
        simp
      have ihr := ih hnd.2 hmem2 (fun C hC => hq C (List.mem_cons_of_mem _ hC))
      by_cases hpa : p a = true
      · rw [List.filter_cons_of_pos (by rw [hqp]; exact hpa),
          List.filter_cons_of_pos hpa]
        simp only [List.length_cons]
        omega
      · rw [List.filter_cons_of_neg (by rw [hqp]; exact hpa),
          List.filter_cons_of_neg hpa]
        exact ihr

theorem sum_extra_row (r0 : Nat) (l : List Nat) (hnd : l.Nodup) (hmem : r0 ∈ l)
    (F G : Nat → Nat) (hFG : ∀ R ∈ l, R ≠ r0 → G R = F R)
    (h0 : G r0 = F r0 + 1) :
    (l.map G).sum = (l.map F).sum + 1 := by
  induction l with
  | nil => exact absurd hmem (List.not_mem_nil r0)
  | cons a l ih =>
    rw [List.nodup_cons] at hnd
    simp only [List.map_cons, List.sum_cons]
    by_cases ha : a = r0
    · subst ha
      have hcong : l.map G = l.map F := by
        apply List.map_congr_left
        intro R hR
        exact hFG R (List.mem_cons_of_mem _ hR) (by intro h; rw [h] at hR; exact hnd.1 hR)
      rw [hcong, h0]
      omega
    · have hmem2 : r0 ∈ l := by
        rcases List.mem_cons.mp hmem with h | h
        · exact absurd h.symm ha
        · exact h
      rw [ih hnd.2 hmem2 (fun R hR => hFG R (List.mem_cons_of_mem _ hR))]
      rw [hFG a (List.mem_cons_self _ _) ha]
      omega

theorem sum_filter_assigned_count (rc colC : Nat) (row col : Nat → Nat) :
    ∀ n, (∀ i, i < n → row i < rc) → (∀ i, i < n → col i < colC) →
    (∀ i i', i < n → i' < n → row i = row i' → col i = col i' → i = i') →
    ((List.range rc).map fun R =>
      ((List.range colC).filter fun C =>
        (List.range n).any fun i => decide (row i = R ∧ col i = C)).length).sum = n := by
  intro n
  induction n with
  | zero =>
    intro _ _ _
    have h : ∀ R, ((List.range colC).filter fun C =>
        (List.range 0).any fun i => decide (row i = R ∧ col i = C)).length = 0 := by
      intro R
      simp
    simp only [h]
    simp [List.sum_eq_zero]
  | succ n ih =>
    intro hrow hcol hinj
    have hprev := ih (fun i hi => hrow i (by omega)) (fun i hi => hcol i (by omega))
      (fun i i' hi hi' => hinj i i' (by omega) (by omega))
    have hsplit : ∀ R C, ((List.range (n + 1)).any fun i =>
        decide (row i = R ∧ col i = C)) =
        (((List.range n).any fun i => decide (row i = R ∧ col i = C)) ||
          decide (row n = R ∧ col n = C)) := by
      intro R C
      rw [List.range_succ, List.any_append]
      simp
    have hnew : ((List.range n).any fun i =>
        decide (row i = row n ∧ col i = col n)) = false := by
      by_contra hcon
      rw [Bool.not_eq_false, List.any_eq_true] at hcon
      obtain ⟨i, hi, hdec⟩ := hcon
      rw [List.mem_range] at hi
      rw [decide_eq_true_eq] at hdec
      have := hinj i n (by omega) (by omega) hdec.1 hdec.2
      omega
    calc ((List.range rc).map fun R =>
        ((List.range colC).filter fun C =>
          (List.range (n + 1)).any fun i => decide (row i = R ∧ col i = C)).length).sum
        = ((List.range rc).map fun R =>
          ((List.range colC).filter fun C =>
            (((List.range n).any fun i => decide (row i = R ∧ col i = C)) ||
              decide (row n = R ∧ col n = C))).length).sum := by
          apply congrArg
          apply List.map_congr_left
          intro R _
          apply congrArg
          apply List.filter_congr
          intro C _
          exact hsplit R C
      _ = ((List.range rc).map fun R =>
          ((List.range colC).filter fun C =>
            (List.range n).any fun i => decide (row i = R ∧ col i = C)).length).sum + 1 := by
          apply sum_extra_row (row n) (List.range rc) (List.nodup_range rc)
            (List.mem_range.mpr (hrow n (by omega)))
          · -- rows other than row n are unchanged
            intro R _ hRne
            apply congrArg
            apply List.filter_congr
            intro C _
            have hdec : decide (row n = R ∧ col n = C) = false := by
              apply decide_eq_false
              intro h
              exact hRne h.1.symm
            rw [hdec]
            simp
          · -- the row of the new cell gains exactly one background-to-assigned flip
            apply filter_extra_cell (col n) (List.range colC) (List.nodup_range colC)
              (List.mem_range.mpr (hcol n (by omega)))
            · intro C _
              have hdec : decide (row n = row n ∧ col n = C) = decide (col n = C) := by
                apply decide_eq_decide.mpr
                constructor
                · intro h; exact h.2
                · intro h; exact ⟨rfl, h⟩
              rw [hdec]
            · exact hnew
      _ = n + 1 := by rw [hprev]

theorem cellIsBackground_eq_true_iff (pix : Pixels) (tilemapW cw ch R C : Nat) :
    cellIsBackground pix tilemapW cw ch R C = true ↔
      ∀ y, y < ch → ∀ x, x < cw → ∀ s, s < 4 →
        pix.get? (compIdx tilemapW cw ch R C y x s) = some (bgComp s) := by
  simp only [cellIsBackground, List.all_eq_true, List.mem_range, decide_eq_true_eq]

theorem cellAssigned_eq_true_iff (order : RowOrder) (rc colC n R C : Nat) :
    cellAssigned order rc colC n R C = true ↔
      ∃ i, i < n ∧ rowIndexOf order rc colC i = R ∧ columnIndexOf colC i = C := by
  simp only [cellAssigned, List.any_eq_true, List.mem_range, decide_eq_true_eq]

theorem compose_cellIsBackground (imgs : List SourceImage) (colC : Nat)
    (order : RowOrder) (hc : 1 ≤ colC)
    (hcw : 1 ≤ maxWidth imgs) (hch : 1 ≤ maxHeight imgs)
    (huni : ∀ img ∈ imgs, img.width = maxWidth imgs ∧ img.height = maxHeight imgs ∧
      img.pixels.length = maxWidth imgs * maxHeight imgs * 4 ∧
      ∃ t, t < img.pixels.length ∧ img.pixels.get? t ≠ some (bgComp (t % 4)))
    (R C : Nat) (hR : R < rowCountOf imgs.length colC) (hC : C < colC) :
    cellIsBackground (compose imgs colC order).pixels (maxWidth imgs * colC)
        (maxWidth imgs) (maxHeight imgs) R C =
      !(cellAssigned order (rowCountOf imgs.length colC) colC imgs.length R C) := by
  have huni' : ∀ img ∈ imgs, img.width = maxWidth imgs ∧ img.height = maxHeight imgs ∧
      img.pixels.length = maxWidth imgs * maxHeight imgs * 4 :=
    fun img h => ⟨(huni img h).1, (huni img h).2.1, (huni img h).2.2.1⟩
  by_cases hex : ∃ i, i < imgs.length ∧
      rowIndexOf order (rowCountOf imgs.length colC) colC i = R ∧
      columnIndexOf colC i = C
  · rw [(cellAssigned_eq_true_iff _ _ _ _ _ _).mpr hex]
    obtain ⟨i, hi, hrow, hcol⟩ := hex
    obtain ⟨hw, hh, hlen, t, ht, hne⟩ := huni (imgs.get ⟨i, hi⟩)
      (imgs.get_mem i hi)
    rw [hlen] at ht
    have hq4 : t / 4 < maxWidth imgs * maxHeight imgs := by
      rw [Nat.div_lt_iff_lt_mul (by omega)]
      exact ht
    have hy0 : t / 4 / maxWidth imgs < maxHeight imgs := by
      rw [Nat.div_lt_iff_lt_mul (by omega)]
      calc t / 4 < maxWidth imgs * maxHeight imgs := hq4
        _ = maxHeight imgs * maxWidth imgs := Nat.mul_comm _ _
    have hx0 : t / 4 % maxWidth imgs < maxWidth imgs := Nat.mod_lt _ (by omega)
    have hs0 : t % 4 < 4 := Nat.mod_lt _ (by omega)
    have happ := (compose_get_uniform imgs colC order hc huni' R C
      (t / 4 / maxWidth imgs) (t / 4 % maxWidth imgs) (t % 4)
      hR hC hy0 hx0 hs0).1 i hi hrow hcol
    have hidx : (t / 4 / maxWidth imgs * maxWidth imgs + t / 4 % maxWidth imgs) * 4 +
        t % 4 = t := by
      have hd1 := Nat.div_add_mod (t / 4) (maxWidth imgs)
      have hd2 := Nat.div_add_mod t 4
      calc (t / 4 / maxWidth imgs * maxWidth imgs + t / 4 % maxWidth imgs) * 4 + t % 4
          = (maxWidth imgs * (t / 4 / maxWidth imgs) + t / 4 % maxWidth imgs) * 4 +
            t % 4 := by ring_nf
        _ = (t / 4) * 4 + t % 4 := by rw [hd1]
        _ = 4 * (t / 4) + t % 4 := by ring_nf
        _ = t := hd2
    rw [hidx] at happ
    simp only [Bool.not_true]
    rw [Bool.eq_false_iff]
    intro habs
    have hbg := (cellIsBackground_eq_true_iff _ _ _ _ _ _).mp habs
      (t / 4 / maxWidth imgs) hy0 (t / 4 % maxWidth imgs) hx0 (t % 4) hs0
    rw [happ] at hbg
    exact hne hbg
  · have hassf : cellAssigned order (rowCountOf imgs.length colC) colC imgs.length R C =
        false := by
      rw [Bool.eq_false_iff]
      intro habs
      exact hex ((cellAssigned_eq_true_iff _ _ _ _ _ _).mp habs)
    rw [hassf]
    simp only [Bool.not_false]
    rw [cellIsBackground_eq_true_iff]
    intro y hy x hx s hs
    exact (compose_get_uniform imgs colC order hc huni' R C y x s
      hR hC hy hx hs).2 (fun i hi hass => hex ⟨i, hi, hass.1, hass.2⟩)

theorem sum_map_add_of_pointwise (l : List Nat) (F G H : Nat → Nat)
    (h : ∀ R ∈ l, F R + G R = H R) :
    (l.map F).sum + (l.map G).sum = (l.map H).sum := by
  induction l with
  | nil => rfl
  | cons a l ih =>
    simp only [List.map_cons, List.sum_cons]
    have ha := h a (List.mem_cons_self _ _)
    have hrest := ih (fun R hR => h R (List.mem_cons_of_mem _ hR))
    omega

theorem compose_countBackground (imgs : List SourceImage) (colC : Nat)
    (order : RowOrder) (hc : 1 ≤ colC)
    (hcw : 1 ≤ maxWidth imgs) (hch : 1 ≤ maxHeight imgs)
    (huni : ∀ img ∈ imgs, img.width = maxWidth imgs ∧ img.height = maxHeight imgs ∧
      img.pixels.length = maxWidth imgs * maxHeight imgs * 4 ∧
      ∃ t, t < img.pixels.length ∧ img.pixels.get? t ≠ some (bgComp (t % 4))) :
    countBackgroundCells (compose imgs colC order).pixels (maxWidth imgs * colC)
        (maxWidth imgs) (maxHeight imgs) (rowCountOf imgs.length colC) colC =
      rowCountOf imgs.length colC * colC - imgs.length := by
  set rc := rowCountOf imgs.length colC with hrc
  set n := imgs.length with hn
  have hstep1 : countBackgroundCells (compose imgs colC order).pixels
      (maxWidth imgs * colC) (maxWidth imgs) (maxHeight imgs) rc colC =
      ((List.range rc).map fun R =>
        ((List.range colC).filter fun C =>
          !(cellAssigned order rc colC n R C)).length).sum := by
    unfold countBackgroundCells
    apply congrArg
    apply List.map_congr_left
    intro R hRmem
    apply congrArg
    apply List.filter_congr
    intro C hCmem
    exact compose_cellIsBackground imgs colC order hc hcw hch huni R C
      (List.mem_range.mp hRmem) (List.mem_range.mp hCmem)
  have hassigned : ((List.range rc).map fun R =>
      ((List.range colC).filter fun C => cellAssigned order rc colC n R C).length).sum
      = n := by
    have h := sum_filter_assigned_count rc colC
      (fun i => rowIndexOf order rc colC i) (fun i => columnIndexOf colC i) n
      (fun i hi => rowIndexOf_lt order n colC i hc hi)
      (fun i hi => columnIndexOf_lt colC i hc)
      (fun i i' hi hi' => assignment_injective order n colC i i' hc hi hi')
    calc ((List.range rc).map fun R =>
        ((List.range colC).filter fun C => cellAssigned order rc colC n R C).length).sum
        = ((List.range rc).map fun R =>
          ((List.range colC).filter fun C =>
            (List.range n).any fun i =>
              decide (rowIndexOf order rc colC i = R ∧
                columnIndexOf colC i = C)).length).sum := by
          apply congrArg
          apply List.map_congr_left
          intro R _
          apply congrArg
          apply List.filter_congr
          intro C _
          rfl
      _ = n := h
  have htotal : ((List.range rc).map fun _ => colC).sum = rc * colC := by
    have haux : ∀ m, ((List.range m).map fun _ => colC).sum = m * colC := by
      intro m
      induction m with
      | zero => simp
      | succ k ih =>
        rw [List.range_succ, List.map_append, List.sum_append, ih]
        simp
        ring
    exact haux rc
  have hpart := sum_map_add_of_pointwise (List.range rc)
    (fun R => ((List.range colC).filter fun C => cellAssigned order rc colC n R C).length)
    (fun R => ((List.range colC).filter fun C => !(cellAssigned order rc colC n R C)).length)
    (fun _ => colC)
    (fun R _ => filter_length_partition (List.range colC)
      (fun C => cellAssigned order rc colC n R C) |>.trans (List.length_range colC))
  rw [hstep1]
  rw [hassigned, htotal] at hpart
  omega

/-! ### Structure of the regex match -/

theorem dropWhile_head_not {α : Type} (p : α → Bool) (l : List α) :
    l.dropWhile p = [] ∨
      ∃ c cs, l.dropWhile p = c :: cs ∧ p c = false := by
  induction l with
  | nil => left; rfl
  | cons a l ih =>
    by_cases h : p a = true
    · rw [List.dropWhile_cons_of_pos h]
      exact ih
    · rw [List.dropWhile_cons_of_neg h]
      right
      exact ⟨a, l, rfl, by simpa using h⟩

theorem drop_length_takeWhile {α : Type} (p : α → Bool) (l : List α) :
    l.drop (l.takeWhile p).length = l.dropWhile p := by
  induction l with
  | nil => rfl
  | cons a l ih =>
    by_cases h : p a = true
    · rw [List.takeWhile_cons_of_pos h, List.dropWhile_cons_of_pos h]
      simpa using ih
    · rw [List.takeWhile_cons_of_neg h, List.dropWhile_cons_of_neg h]
      rfl

theorem splitThree_reverse {α : Type} (p q : α → Bool) (r : List α) :
    (r.drop ((r.takeWhile p).length +
        ((r.drop (r.takeWhile p).length).takeWhile q).length)).reverse ++
      ((r.drop (r.takeWhile p).length).takeWhile q).reverse ++
      (r.takeWhile p).reverse = r.reverse := by
  rw [show r.drop ((r.takeWhile p).length +
      ((r.drop (r.takeWhile p).length).takeWhile q).length) =
      (r.drop (r.takeWhile p).length).drop
        ((r.drop (r.takeWhile p).length).takeWhile q).length from
      (List.drop_drop _ _ _).symm]
  rw [drop_length_takeWhile p r, drop_length_takeWhile q (r.dropWhile p)]
  rw [← List.reverse_append, ← List.reverse_append,
    List.takeWhile_append_dropWhile, List.takeWhile_append_dropWhile]

theorem splitLastRun_append (f : FileName) :
    (splitLastRun f).1 ++ (splitLastRun f).2.1 ++ (splitLastRun f).2.2 = f := by
  have h := splitThree_reverse (fun c => ¬ c.isDigit) (fun c => c.isDigit) f.reverse
  rw [List.reverse_reverse] at h
  simp only [splitLastRun]
  exact h

theorem splitLastRun_digits (f : FileName) :
    ∀ c ∈ (splitLastRun f).2.1, c.isDigit = true := by
  intro c hc
  simp only [splitLastRun] at hc
  rw [List.mem_reverse] at hc
  exact List.mem_takeWhile_imp hc

theorem splitLastRun_suffix_nondigits (f : FileName) :
    ∀ c ∈ (splitLastRun f).2.2, c.isDigit = false := by
  intro c hc
  simp only [splitLastRun] at hc
  rw [List.mem_reverse] at hc
  have h := List.mem_takeWhile_imp hc
  simpa using h

theorem splitLastRun_maximal (f : FileName) :
    (splitLastRun f).1 = [] ∨
      ∃ c, (splitLastRun f).1.getLast? = some c ∧ c.isDigit = false := by
  simp only [splitLastRun]
  rw [List.getLast?_reverse]
  rw [show f.reverse.drop ((f.reverse.takeWhile fun c => ¬ c.isDigit).length +
      ((f.reverse.drop
          (f.reverse.takeWhile fun c => ¬ c.isDigit).length).takeWhile
        fun c => c.isDigit).length) =
      (f.reverse.drop
        (f.reverse.takeWhile fun c => ¬ c.isDigit).length).drop
        ((f.reverse.drop
            (f.reverse.takeWhile fun c => ¬ c.isDigit).length).takeWhile
          fun c => c.isDigit).length from (List.drop_drop _ _ _).symm]
  rw [drop_length_takeWhile, drop_length_takeWhile]
  rcases dropWhile_head_not (fun c => c.isDigit)
    ((f.reverse.dropWhile fun c => ¬ c.isDigit)) with h | ⟨c, cs, heq, hc⟩
  · left
    rw [h]
    rfl
  · right
    refine ⟨c, ?_, hc⟩
    rw [heq]
    rfl

theorem splitLastRun_nil_iff (f : FileName) :
    (splitLastRun f).2.1 = [] ↔ ∀ c ∈ f, c.isDigit = false := by
  simp only [splitLastRun]
  rw [drop_length_takeWhile]
  constructor
  · intro h c hc
    rcases dropWhile_head_not (fun c => ¬ c.isDigit) f.reverse with
      hnil | ⟨c0, cs, heq, hc0⟩
    · have hall := List.dropWhile_eq_nil_iff.mp hnil
      have := hall c (List.mem_reverse.mpr hc)
      simpa using this
    · exfalso
      rw [heq] at h
      have hc0' : c0.isDigit = true := by simpa using hc0
      rw [List.takeWhile_cons_of_pos hc0'] at h
      simp at h
  · intro h
    have hnil : f.reverse.dropWhile (fun c => ¬ c.isDigit) = [] := by
      rw [List.dropWhile_eq_nil_iff]
      intro c hc
      have := h c (List.mem_reverse.mp hc)
      simpa using this
    rw [hnil]
    rfl

/-! ### Dict and grouping-loop lemmas -/

theorem findMembers_insertSeq (g : Groups) (m m' : FileName) (e : Nat × FileName) :
    findMembers (insertSeq g m e) m' =
      if m = m' then findMembers g m' ++ [e] else findMembers g m' := by
  induction g with
  | nil =>
    simp only [insertSeq, findMembers]
    by_cases h : m = m'
    · rw [if_pos h, if_pos h]
      rfl
    · rw [if_neg h, if_neg h]
  | cons hd tl ih =>
    obtain ⟨m1, l1⟩ := hd
    by_cases h1 : m1 = m
    · by_cases h2 : m1 = m'
      · have hmm : m = m' := h1.symm.trans h2
        simp only [insertSeq, if_pos h1, findMembers, if_pos h2, if_pos hmm]
      · have hmm : ¬ m = m' := fun h => h2 (h1.trans h)
        simp only [insertSeq, if_pos h1, findMembers, if_neg h2, if_neg hmm]
    · by_cases h2 : m1 = m'
      · have hmm : ¬ m = m' := fun h => h1 (h2.trans h.symm)
        simp only [insertSeq, if_neg h1, findMembers, if_pos h2, if_neg hmm]
      · simp only [insertSeq, if_neg h1, findMembers, if_neg h2]
        exact ih

theorem keysOf_insertSeq (g : Groups) (m m' : FileName) (e : Nat × FileName) :
    m' ∈ keysOf (insertSeq g m e) ↔ m' ∈ keysOf g ∨ m' = m := by
  induction g with
  | nil =>
    simp [insertSeq, keysOf]
  | cons hd tl ih =>
    obtain ⟨m1, l1⟩ := hd
    simp only [insertSeq]
    by_cases h1 : m1 = m
    · rw [if_pos h1]
      subst h1
      simp only [keysOf, List.map_cons, List.mem_cons]
      constructor
      · intro h
        rcases h with h | h
        · exact Or.inl (Or.inl h)
        · exact Or.inl (Or.inr h)
      · intro h
        rcases h with (h | h) | h
        · exact Or.inl h
        · exact Or.inr h
        · exact Or.inl h
    · rw [if_neg h1]
      simp only [keysOf, List.map_cons, List.mem_cons] at *
      constructor
      · intro h
        rcases h with h | h
        · exact Or.inl (Or.inl h)
        · rcases ih.mp h with h2 | h2
          · exact Or.inl (Or.inr h2)
          · exact Or.inr h2
      · intro h
        rcases h with (h | h) | h
        · exact Or.inl h
        · exact Or.inr (ih.mpr (Or.inl h))
        · exact Or.inr (ih.mpr (Or.inr h))

theorem keysOf_insertSeq_nodup (g : Groups) (m : FileName) (e : Nat × FileName)
    (h : (keysOf g).Nodup) : (keysOf (insertSeq g m e)).Nodup := by
  induction g with
  | nil =>
    simp [insertSeq, keysOf]
  | cons hd tl ih =>
    obtain ⟨m1, l1⟩ := hd
    simp only [insertSeq]
    simp only [keysOf, List.map_cons, List.nodup_cons] at h
    by_cases h1 : m1 = m
    · rw [if_pos h1]
      simp only [keysOf, List.map_cons, List.nodup_cons]
      exact h
    · rw [if_neg h1]
      simp only [keysOf, List.map_cons, List.nodup_cons]
      constructor
      · intro habs
        rcases (keysOf_insertSeq tl m m1 e).mp habs with h2 | h2
        · exact h.1 h2
        · exact h1 h2
      · exact ih h.2

theorem mem_groups_findMembers (g : Groups) (m : FileName)
    (l : List (Nat × FileName)) (hnd : (keysOf g).Nodup) (hmem : (m, l) ∈ g) :
    findMembers g m = l := by
  induction g with
  | nil => exact absurd hmem (List.not_mem_nil _)
  | cons hd tl ih =>
    obtain ⟨m1, l1⟩ := hd
    simp only [keysOf, List.map_cons, List.nodup_cons] at hnd
    rcases List.mem_cons.mp hmem with h | h
    · have hm : m1 = m := (congrArg Prod.fst h).symm
      have hl : l1 = l := (congrArg Prod.snd h).symm
      simp only [findMembers]
      rw [if_pos hm]
      exact hl
    · simp only [findMembers]
      by_cases hm : m1 = m
      · exfalso
        apply hnd.1
        subst hm
        exact List.mem_map.mpr ⟨(m1, l), h, rfl⟩
      · rw [if_neg hm]
        exact ih hnd.2 h

theorem discoverAux_ok_of_digits (files : List FileName) :
    ∀ acc : Groups, (∀ f ∈ files, (splitLastRun f).2.1 ≠ []) →
    discoverAux acc files =
      Except.ok (files.foldl (fun g f => insertSeq g (maskOf f) (frameOf f, f)) acc) := by
  induction files with
  | nil => intro acc _; rfl
  | cons f fs ih =>
    intro acc hall
    have hdig : (splitLastRun f).2.1 ≠ [] := hall f (List.mem_cons_self _ _)
    have hpf : processFile acc f =
        Except.ok (insertSeq acc (maskOf f) (frameOf f, f)) := by
      simp only [processFile, maskOf, frameOf]
      rw [if_neg hdig]
    simp only [discoverAux, hpf, List.foldl_cons]
    exact ih _ (fun f2 h2 => hall f2 (List.mem_cons_of_mem _ h2))

theorem discoverAux_error_of_nodigits (files : List FileName) :
    ∀ acc : Groups, (∃ f ∈ files, (splitLastRun f).2.1 = []) →
    discoverAux acc files = Except.error () := by
  induction files with
  | nil =>
    intro acc h
    obtain ⟨f, hf, _⟩ := h
    exact absurd hf (List.not_mem_nil f)
  | cons f fs ih =>
    intro acc h
    by_cases hdig : (splitLastRun f).2.1 = []
    · have hpf : processFile acc f = Except.error () := by
        simp only [processFile]
        rw [if_pos hdig]
      simp only [discoverAux, hpf]
    · have hpf : processFile acc f =
          Except.ok (insertSeq acc (maskOf f) (frameOf f, f)) := by
        simp only [processFile, maskOf, frameOf]
        rw [if_neg hdig]
      simp only [discoverAux, hpf]
      apply ih
      obtain ⟨f2, hf2, hd2⟩ := h
      rcases List.mem_cons.mp hf2 with rfl | hf3
      · exact absurd hd2 hdig
      · exact ⟨f2, hf3, hd2⟩

theorem discoverAux_ok_digits (files : List FileName) :
    ∀ acc g, discoverAux acc files = Except.ok g →
    ∀ f ∈ files, (splitLastRun f).2.1 ≠ [] := by
  intro acc g hok f hf hdig
  rw [discoverAux_error_of_nodigits files acc ⟨f, hf, hdig⟩] at hok
  exact Except.noConfusion hok

theorem foldl_insertSeq_findMembers (files : List FileName) :
    ∀ acc : Groups, ∀ m : FileName,
    findMembers (files.foldl (fun g f => insertSeq g (maskOf f) (frameOf f, f)) acc) m =
      findMembers acc m ++
        files.filterMap (fun f => if maskOf f = m then some (frameOf f, f) else none) := by
  induction files with
  | nil => intro acc m; simp
  | cons f fs ih =>
    intro acc m
    simp only [List.foldl_cons, List.filterMap_cons]
    rw [ih]
    rw [findMembers_insertSeq]
    by_cases h : maskOf f = m
    · rw [if_pos h, if_pos h]
      simp
    · rw [if_neg h, if_neg h]

theorem foldl_insertSeq_keys (files : List FileName) :
    ∀ acc : Groups, ∀ m : FileName,
    (m ∈ keysOf (files.foldl (fun g f => insertSeq g (maskOf f) (frameOf f, f)) acc) ↔
      m ∈ keysOf acc ∨ ∃ f ∈ files, maskOf f = m) := by
  induction files with
  | nil => intro acc m; simp
  | cons f fs ih =>
    intro acc m
    simp only [List.foldl_cons]
    rw [ih]
    rw [keysOf_insertSeq]
    constructor
    · intro h
      rcases h with (h | h) | h
      · exact Or.inl h
      · exact Or.inr ⟨f, List.mem_cons_self _ _, h.symm⟩
      · obtain ⟨f2, hf2, hm2⟩ := h
        exact Or.inr ⟨f2, List.mem_cons_of_mem _ hf2, hm2⟩
    · intro h
      rcases h with h | ⟨f2, hf2, hm2⟩
      · exact Or.inl (Or.inl h)
      · rcases List.mem_cons.mp hf2 with rfl | hf3
        · exact Or.inl (Or.inr hm2.symm)
        · exact Or.inr ⟨f2, hf3, hm2⟩

theorem foldl_insertSeq_keys_nodup (files : List FileName) :
    ∀ acc : Groups, (keysOf acc).Nodup →
    (keysOf (files.foldl (fun g f => insertSeq g (maskOf f) (frameOf f, f)) acc)).Nodup := by
  induction files with
  | nil => intro acc h; exact h
  | cons f fs ih =>
    intro acc h
    simp only [List.foldl_cons]
    exact ih _ (keysOf_insertSeq_nodup _ _ _ h)

theorem discoverFiles_eq_foldl (files : List FileName) (g : Groups)
    (hok : discoverFiles files = Except.ok g) :
    g = files.foldl (fun g f => insertSeq g (maskOf f) (frameOf f, f)) [] := by
  have hdig := discoverAux_ok_digits files [] g hok
  have h0 := discoverAux_ok_of_digits files [] hdig
  rw [discoverFiles] at hok
  rw [hok] at h0
  exact Except.ok.inj h0

theorem discoverFiles_findMembers (files : List FileName) (g : Groups)
    (hok : discoverFiles files = Except.ok g) (m : FileName) :
    findMembers g m =
      files.filterMap (fun f => if maskOf f = m then some (frameOf f, f) else none) := by
  rw [discoverFiles_eq_foldl files g hok, foldl_insertSeq_findMembers]
  rfl

theorem discoverFiles_keys (files : List FileName) (g : Groups)
    (hok : discoverFiles files = Except.ok g) (m : FileName) :
    m ∈ keysOf g ↔ ∃ f ∈ files, maskOf f = m := by
  rw [discoverFiles_eq_foldl files g hok, foldl_insertSeq_keys]
  simp [keysOf]

theorem discoverFiles_keys_nodup (files : List FileName) (g : Groups)
    (hok : discoverFiles files = Except.ok g) : (keysOf g).Nodup := by
  rw [discoverFiles_eq_foldl files g hok]
  exact foldl_insertSeq_keys_nodup files [] (by simp [keysOf])

theorem maskOf_eq (f : FileName) :
    maskOf f = (splitLastRun f).1 ++ ['#'] ++ (splitLastRun f).2.2 := rfl

/-! ### Claim theorems -/

/-- C2 (counterexample): the filename `a.p` has no digit run; the claim says
discovery silently drops it and returns normally, but discovery raises
(`match` is `None` and `match.start(1)` fails, line 98), so the whole scan
aborts with an error instead of returning a grouping. -/
theorem C2_counterexample :
    discoverFiles [['a', '.', 'p']] = Except.error () := rfl

/-- C2 (amended): whenever the input contains a filename with no decimal
digits at all, the discovery loop does not return normally: it aborts with an
error (the unguarded `match.start(1)` of line 98 on a `None` match), so the
filename is not silently dropped — no grouping at all is produced. -/
theorem C2_no_digit_error (files : List FileName)
    (h : ∃ f ∈ files, ∀ c ∈ f, c.isDigit = false) :
    discoverFiles files = Except.error () := by
  obtain ⟨f, hf, hnd⟩ := h
  exact discoverAux_error_of_nodigits files [] ⟨f, hf, (splitLastRun_nil_iff f).mpr hnd⟩

theorem C2_no_digit_error_witness :
    (∃ f ∈ [['a']], ∀ c ∈ f, c.isDigit = false) ∧
    discoverFiles [['a']] = Except.error () := by
  refine ⟨⟨['a'], List.mem_singleton.mpr rfl, by decide⟩, ?_⟩
  exact C2_no_digit_error [['a']] ⟨['a'], List.mem_singleton.mpr rfl, by decide⟩

/-- C3: on a successful scan, every input filename is split as
`pre ++ dig ++ suf` where `dig` is the rightmost maximal digit run (non-empty,
all digits, followed only by non-digits, and not preceded by a digit), its
mask is exactly `pre ++ "#" ++ suf`, its frame is the numeric value of `dig`,
and `(frame, file)` is recorded in the group keyed by the mask; conversely
every member of every returned group arises this way from an input filename,
so substituting the member's digit run back in place of the mask's
placeholder reproduces the member's exact filename
(`f = pre ++ dig ++ suf` with `mask = pre ++ "#" ++ suf`). -/
theorem C3_grouping (files : List FileName) (g : Groups)
    (hok : discoverFiles files = Except.ok g) :
    (∀ f ∈ files,
      ∃ pre dig suf : FileName,
        f = pre ++ dig ++ suf ∧
        dig ≠ [] ∧
        (∀ c ∈ dig, c.isDigit = true) ∧
        (∀ c ∈ suf, c.isDigit = false) ∧
        (pre = [] ∨ ∃ c, pre.getLast? = some c ∧ c.isDigit = false) ∧
        maskOf f = pre ++ ['#'] ++ suf ∧
        frameOf f = digitsToNat dig ∧
        (frameOf f, f) ∈ findMembers g (maskOf f)) ∧
    (∀ m members, (m, members) ∈ g → ∀ fr f, (fr, f) ∈ members →
      f ∈ files ∧ m = maskOf f ∧ fr = frameOf f ∧
      ∃ pre dig suf : FileName,
        f = pre ++ dig ++ suf ∧ m = pre ++ ['#'] ++ suf ∧ fr = digitsToNat dig ∧
        dig ≠ [] ∧ (∀ c ∈ dig, c.isDigit = true) ∧ (∀ c ∈ suf, c.isDigit = false)) := by
  have hdig := discoverAux_ok_digits files [] g hok
  constructor
  · intro f hf
    refine ⟨(splitLastRun f).1, (splitLastRun f).2.1, (splitLastRun f).2.2,
      (splitLastRun_append f).symm, hdig f hf, splitLastRun_digits f,
      splitLastRun_suffix_nondigits f, splitLastRun_maximal f, maskOf_eq f, rfl, ?_⟩
    rw [discoverFiles_findMembers files g hok]
    rw [List.mem_filterMap]
    exact ⟨f, hf, by rw [if_pos rfl]⟩
  · intro m members hmem fr f hfr
    have hnd := discoverFiles_keys_nodup files g hok
    have hfind : findMembers g m = members := mem_groups_findMembers g m members hnd hmem
    rw [discoverFiles_findMembers files g hok] at hfind
    rw [← hfind] at hfr
    rw [List.mem_filterMap] at hfr
    obtain ⟨f2, hf2, hif⟩ := hfr
    by_cases hmm : maskOf f2 = m
    · rw [if_pos hmm] at hif
      have hh := Option.some.inj hif
      have hfr2 : frameOf f2 = fr := congrArg Prod.fst hh
      have hff : f2 = f := congrArg Prod.snd hh
      subst hff
      refine ⟨hf2, hmm.symm, hfr2.symm,
        (splitLastRun f2).1, (splitLastRun f2).2.1, (splitLastRun f2).2.2,
        (splitLastRun_append f2).symm, by rw [← hmm, maskOf_eq], by rw [← hfr2]; rfl,
        hdig f2 hf2, splitLastRun_digits f2, splitLastRun_suffix_nondigits f2⟩
    · rw [if_neg hmm] at hif
      exact Option.noConfusion hif

theorem C3_grouping_witness :
    discoverFiles [['a', '1']] = Except.ok [(['a', '#'], [(1, ['a', '1'])])] ∧
    (frameOf ['a', '1'], (['a', '1'] : FileName)) ∈
      findMembers [(['a', '#'], [(1, ['a', '1'])])] (maskOf ['a', '1']) := by
  have hok : discoverFiles [['a', '1']] =
      Except.ok [(['a', '#'], [(1, ['a', '1'])])] := rfl
  refine ⟨hok, ?_⟩
  have h := (C3_grouping [['a', '1']] [(['a', '#'], [(1, ['a', '1'])])] hok).1
    ['a', '1'] (List.mem_singleton.mpr rfl)
  obtain ⟨pre, dig, suf, _, _, _, _, _, _, _, hmem⟩ := h
  exact hmem

/-- C9: discovery is order independent — for permuted inputs the scans either
both fail or both succeed, and on success they produce the same set of masks
and, for each mask, the same members up to order. -/
theorem C9_permutation (files1 files2 : List FileName) (hperm : files1.Perm files2) :
    ((discoverFiles files1).isOk = (discoverFiles files2).isOk) ∧
    (∀ g1 g2, discoverFiles files1 = Except.ok g1 →
      discoverFiles files2 = Except.ok g2 →
      (∀ m, m ∈ keysOf g1 ↔ m ∈ keysOf g2) ∧
      (∀ m, (findMembers g1 m).Perm (findMembers g2 m))) := by
  constructor
  · by_cases hall : ∀ f ∈ files1, (splitLastRun f).2.1 ≠ []
    · have hall2 : ∀ f ∈ files2, (splitLastRun f).2.1 ≠ [] :=
        fun f hf => hall f (hperm.mem_iff.mpr hf)
      rw [discoverFiles, discoverAux_ok_of_digits files1 [] hall,
        discoverFiles, discoverAux_ok_of_digits files2 [] hall2]
      rfl
    · push_neg at hall
      obtain ⟨f, hf, hdig⟩ := hall
      rw [discoverFiles, discoverAux_error_of_nodigits files1 [] ⟨f, hf, hdig⟩,
        discoverFiles, discoverAux_error_of_nodigits files2 []
          ⟨f, hperm.mem_iff.mp hf, hdig⟩]
  · intro g1 g2 hok1 hok2
    constructor
    · intro m
      rw [discoverFiles_keys files1 g1 hok1 m, discoverFiles_keys files2 g2 hok2 m]
      constructor
      · rintro ⟨f, hf, hm⟩
        exact ⟨f, hperm.mem_iff.mp hf, hm⟩
      · rintro ⟨f, hf, hm⟩
        exact ⟨f, hperm.mem_iff.mpr hf, hm⟩
    · intro m
      rw [discoverFiles_findMembers files1 g1 hok1 m,
        discoverFiles_findMembers files2 g2 hok2 m]
      exact hperm.filterMap _

theorem C9_permutation_witness :
    (([['a', '1'], ['b', '2']] : List FileName).Perm [['b', '2'], ['a', '1']]) ∧
    (discoverFiles [['a', '1'], ['b', '2']]).isOk =
      (discoverFiles [['b', '2'], ['a', '1']]).isOk := by
  have hperm : ([['a', '1'], ['b', '2']] : List FileName).Perm
      [['b', '2'], ['a', '1']] := by decide
  exact ⟨hperm, (C9_permutation _ _ hperm).1⟩

/-- C8: the caching wrapper returns the memoized grouping (independently of
the filesystem, i.e. without re-scanning) exactly when the supplied path
equals the cached path and the dirty flag is clear; otherwise it re-scans via
discovery, stores the fresh result keyed to the supplied path with the dirty
flag cleared (unconditionally evicting the single cached slot), and returns
it — and a failing re-scan propagates the error leaving the state unchanged. -/
theorem C8_cache (fsys fsys' : FileName → Option (List FileName)) (st : CacheState)
    (path : FileName) :
    (st.cachedPath = some path → st.dirty = false →
      getImageSequencesInFolder fsys st path = Except.ok (st.seqs, st) ∧
      getImageSequencesInFolder fsys st path =
        getImageSequencesInFolder fsys' st path) ∧
    ((st.cachedPath ≠ some path ∨ st.dirty = true) →
      (∀ g, discoverInFolder fsys path = Except.ok g →
        getImageSequencesInFolder fsys st path =
          Except.ok (g, ⟨g, some path, false⟩)) ∧
      (∀ e, discoverInFolder fsys path = Except.error e →
        getImageSequencesInFolder fsys st path = Except.error e)) := by
  constructor
  · intro hpath hdirty
    have hcond : ¬(some path ≠ st.cachedPath ∨ st.dirty = true) := by
      rw [hpath, hdirty]
      simp
    rw [getImageSequencesInFolder, if_neg hcond, getImageSequencesInFolder,
      if_neg hcond]
    exact ⟨rfl, rfl⟩
  · intro hmiss
    have hcond : some path ≠ st.cachedPath ∨ st.dirty = true := by
      rcases hmiss with h | h
      · exact Or.inl (fun he => h he.symm)
      · exact Or.inr h
    constructor
    · intro g hg
      rw [getImageSequencesInFolder, if_pos hcond, hg]
    · intro e he
      rw [getImageSequencesInFolder, if_pos hcond, he]

theorem C8_cache_witness :
    getImageSequencesInFolder (fun _ => none) ⟨[], some ['a'], false⟩ ['a'] =
      Except.ok ([], ⟨[], some ['a'], false⟩) ∧
    getImageSequencesInFolder (fun _ => none) ⟨[], some ['b'], false⟩ ['a'] =
      Except.ok ([], ⟨[], some ['a'], false⟩) := by
  constructor
  · exact ((C8_cache (fun _ => none) (fun _ => none) ⟨[], some ['a'], false⟩
      ['a']).1 rfl rfl).1
  · exact ((C8_cache (fun _ => none) (fun _ => none) ⟨[], some ['b'], false⟩
      ['a']).2 (Or.inl (by decide)) ).1 [] rfl

/-- C4: the composed atlas is `max(source widths) * columnCount` wide and
`max(source heights) * ceil(n / columnCount)` high (lines 315 and 167-168);
the natural-number row count used by the code equals the rational ceiling of
`n / columnCount`. -/
theorem C4_compose_dimensions (imgs : List SourceImage) (colC : Nat)
    (order : RowOrder) (hne : imgs ≠ []) (hc : 1 ≤ colC) :
    (compose imgs colC order).width =
      (imgs.map SourceImage.width).foldl Nat.max 0 * colC ∧
    (compose imgs colC order).height =
      (imgs.map SourceImage.height).foldl Nat.max 0 * rowCountOf imgs.length colC ∧
    (rowCountOf imgs.length colC : ℤ) = ⌈(imgs.length : ℚ) / (colC : ℚ)⌉ := by
  refine ⟨?_, ?_, rowCountOf_eq_ceil _ _ hc⟩
  · show maxWidth imgs * colC = _
    rw [maxWidth_eq_foldl_max]
  · show maxHeight imgs * rowCountOf imgs.length colC = _
    rw [maxHeight_eq_foldl_max]

theorem C4_compose_dimensions_witness :
    ([⟨2, 3, []⟩] : List SourceImage) ≠ [] ∧
    (compose [⟨2, 3, ([] : Pixels)⟩] 2 RowOrder.topToBottom).width = 4 ∧
    (compose [⟨2, 3, ([] : Pixels)⟩] 2 RowOrder.topToBottom).height = 3 := by
  have h := C4_compose_dimensions [⟨2, 3, ([] : Pixels)⟩] 2 RowOrder.topToBottom
    (by simp) (by omega)
  refine ⟨by simp, ?_, ?_⟩
  · rw [h.1]
    decide
  · rw [h.2.1]
    decide

/-- C5: the code assigns image `i` the destination row (counted from the
bottom) `rowCount - 1 - i / columnCount` under `topToBottom` and
`i / columnCount` under `bottomToTop`, and the column `i % columnCount`
(lines 333-334); every assigned row index stays below `rowCount`, and image 0
gets the top row (`rowCount - 1`, the highest index from the bottom) and
column 0 under `topToBottom` — the top-left cell — and row 0, column 0 — the
bottom-left cell — under `bottomToTop`. -/
theorem C5_cell_assignment (order : RowOrder) (n colC i : Nat)
    (hc : 1 ≤ colC) (hi : i < n) :
    (order = RowOrder.topToBottom →
      rowIndexOf order (rowCountOf n colC) colC i =
        rowCountOf n colC - 1 - i / colC) ∧
    (order = RowOrder.bottomToTop →
      rowIndexOf order (rowCountOf n colC) colC i = i / colC) ∧
    columnIndexOf colC i = i % colC ∧
    rowIndexOf order (rowCountOf n colC) colC i ≤ rowCountOf n colC - 1 ∧
    (i = 0 →
      rowIndexOf RowOrder.topToBottom (rowCountOf n colC) colC 0 =
        rowCountOf n colC - 1 ∧
      rowIndexOf RowOrder.bottomToTop (rowCountOf n colC) colC 0 = 0 ∧
      columnIndexOf colC 0 = 0) := by
  have hlt := rowIndexOf_lt order n colC i hc hi
  have hrc := rowCountOf_pos n colC hc (by omega)
  refine ⟨?_, ?_, rfl, by omega, ?_⟩
  · rintro rfl
    rfl
  · rintro rfl
    rfl
  · intro _
    refine ⟨?_, ?_, ?_⟩
    · simp [rowIndexOf, Nat.zero_div]
    · simp [rowIndexOf, Nat.zero_div]
    · simp [columnIndexOf]

theorem C5_cell_assignment_witness :
    (1 ≤ 2 ∧ 0 < 3) ∧
    rowIndexOf RowOrder.topToBottom (rowCountOf 3 2) 2 0 = rowCountOf 3 2 - 1 ∧
    rowIndexOf RowOrder.bottomToTop (rowCountOf 3 2) 2 0 = 0 ∧
    columnIndexOf 2 0 = 0 := by
  have h := (C5_cell_assignment RowOrder.topToBottom 3 2 0 (by omega) (by omega)).2.2.2.2
    rfl
  exact ⟨⟨by omega, by omega⟩, h.1, h.2.1, h.2.2⟩

/-- C7 (counterexample): composing zero images is not rejected — the embedded
compositor runs to completion on the empty list and produces a 0×0 output
with an empty pixel buffer (max sizes and row count are all 0), rather than
failing before allocation as the claim states. -/
theorem C7_counterexample :
    compose [] 2 RowOrder.topToBottom = ⟨0, 0, []⟩ := rfl

/-- C7 (amended): the operator contains no emptiness check: for an empty image
sequence it proceeds, computes max sizes 0 and row count 0, and requests a
0×0 output image with an empty background buffer; any rejection would come
from the host image API (`bpy.data.images.new`), not from this code, and it
would occur only after the sizes are computed. -/
theorem C7_empty_not_rejected (colC : Nat) (order : RowOrder) :
    compose [] colC order = ⟨0, 0, []⟩ := by
  have hw : maxWidth [] = 0 := rfl
  have hh : maxHeight [] = 0 := rfl
  simp [compose, hw, hh, composeLoop, composeSteps, backgroundPixels, List.enum]

/-- C1 (code bug evaluation): sources `[2×2 (all 7), 1×1 (all 5)]` with
columnCount 2 give cell size 2×2 and a 4×2 atlas.  The claim places the
second image's row 0 at component `(0*cellHeight*4 + gridColumn*cellWidth)*4
= 8`; the code's offset arithmetic (lines 343-344) uses the tile's own width
and height instead of the cell dimensions and writes it at component 4
instead, so the claimed location still holds the background value 0 while
the tile data sits at component 4. -/
theorem C1_failing_eval :
    (compose [⟨2, 2, [7, 7, 7, 7, 7, 7, 7, 7, 7, 7, 7, 7, 7, 7, 7, 7]⟩,
        ⟨1, 1, [5, 5, 5, 5]⟩] 2 RowOrder.topToBottom).pixels.get? 8 = some 0 ∧
    (compose [⟨2, 2, [7, 7, 7, 7, 7, 7, 7, 7, 7, 7, 7, 7, 7, 7, 7, 7]⟩,
        ⟨1, 1, [5, 5, 5, 5]⟩] 2 RowOrder.topToBottom).pixels.get? 4 = some 5 := by
  constructor <;> rfl

/-- C6 (counterexample): one all-black 1×1 source (equal to the background
value R=0,G=0,B=0,A=1) with columnCount 2 gives rowCount 1, so
`rowCount*columnCount = n + k` with `k = 1`; but both cells of the composed
atlas are entirely at the background value, so the number of background cells
is 2, not exactly `k = 1` as the claim states. -/
theorem C6_counterexample :
    rowCountOf 1 2 * 2 - 1 = 1 ∧
    countBackgroundCells
      (compose [⟨1, 1, [0, 0, 0, 1]⟩] 2 RowOrder.topToBottom).pixels
      2 1 1 (rowCountOf 1 2) 2 = 2 ∧
    countBackgroundCells
      (compose [⟨1, 1, [0, 0, 0, 1]⟩] 2 RowOrder.topToBottom).pixels
      2 1 1 (rowCountOf 1 2) 2 ≠ rowCountOf 1 2 * 2 - 1 := by
  refine ⟨rfl, ?_, ?_⟩ <;> decide

/-- C6 (amended): every pixel of the destination buffer is initialized to the
background value R=0,G=0,B=0,A=1 (line 325); and when every source image has
exactly the cell dimensions (width = max width ≥ 1, height = max height ≥ 1,
well-formed pixel list) and contains at least one component differing from
the background, the composed output has exactly
`rowCount*columnCount - n` grid cells entirely at the background value — the
`k` unassigned cells.  (Without the uniform-size condition the placement bug
of C1 can spill tile data into unassigned cells, and an all-background source
makes its own cell count as background, so the claim's unconditional
"exactly k" fails.) -/
theorem C6_background_and_empty_tiles (imgs : List SourceImage) (colC : Nat)
    (order : RowOrder) (hc : 1 ≤ colC) (hne : imgs ≠ [])
    (hcw : 1 ≤ maxWidth imgs) (hch : 1 ≤ maxHeight imgs)
    (huni : ∀ img ∈ imgs, img.width = maxWidth imgs ∧
      img.height = maxHeight imgs ∧
      img.pixels.length = maxWidth imgs * maxHeight imgs * 4 ∧
      ∃ t, t < img.pixels.length ∧ img.pixels.get? t ≠ some (bgComp (t % 4))) :
    (∀ j, j < 4 * (maxWidth imgs * colC *
        (maxHeight imgs * rowCountOf imgs.length colC)) →
      (backgroundPixels (maxWidth imgs * colC *
        (maxHeight imgs * rowCountOf imgs.length colC))).get? j =
        some (bgComp (j % 4))) ∧
    countBackgroundCells (compose imgs colC order).pixels (maxWidth imgs * colC)
        (maxWidth imgs) (maxHeight imgs) (rowCountOf imgs.length colC) colC =
      rowCountOf imgs.length colC * colC - imgs.length :=
  ⟨fun j hj => backgroundPixels_get _ j hj,
    compose_countBackground imgs colC order hc hcw hch huni⟩

theorem C6_background_and_empty_tiles_witness :
    1 ≤ maxWidth [⟨1, 1, ([1, 0, 0, 1] : Pixels)⟩] ∧
    countBackgroundCells
      (compose [⟨1, 1, ([1, 0, 0, 1] : Pixels)⟩] 2 RowOrder.topToBottom).pixels
      (maxWidth [⟨1, 1, ([1, 0, 0, 1] : Pixels)⟩] * 2)
      (maxWidth [⟨1, 1, ([1, 0, 0, 1] : Pixels)⟩])
      (maxHeight [⟨1, 1, ([1, 0, 0, 1] : Pixels)⟩])
      (rowCountOf ([⟨1, 1, ([1, 0, 0, 1] : Pixels)⟩] : List SourceImage).length 2) 2 =
      1 := by
  have h := C6_background_and_empty_tiles [⟨1, 1, ([1, 0, 0, 1] : Pixels)⟩] 2
    RowOrder.topToBottom (by omega) (by simp) (by decide) (by decide)
    (by
      intro img hmem
      rw [List.mem_singleton] at hmem
      subst hmem
      exact ⟨rfl, rfl, rfl, 0, by decide, by decide⟩)
  refine ⟨by decide, ?_⟩
  rw [h.2]
  decide

/-- C10: for well-formed sources, every slice write of the compositing loop
stays inside the destination buffer (the end offset of every written line is
at most `outputW*outputH*4`), the buffer length is exactly
`outputW*outputH*4` after every iteration of the outer loop (Python slice
assignment never grows or shrinks it because source and target slices have
equal length and stay in range), and the final pixel list of the composed
atlas has exactly `width*height*4` components. -/
theorem C10_slice_writes_safe (imgs : List SourceImage) (colC : Nat)
    (order : RowOrder) (hc : 1 ≤ colC)
    (hwf : ∀ img ∈ imgs, img.pixels.length = img.width * img.height * 4) :
    (∀ i, ∀ hi : i < imgs.length, ∀ y, y < (imgs.get ⟨i, hi⟩).height →
      tileDestStart (maxWidth imgs * colC) (imgs.get ⟨i, hi⟩).width
          (imgs.get ⟨i, hi⟩).height
          (rowIndexOf order (rowCountOf imgs.length colC) colC i)
          (columnIndexOf colC i) y + (imgs.get ⟨i, hi⟩).width * 4 ≤
        maxWidth imgs * colC * (maxHeight imgs * rowCountOf imgs.length colC) * 4) ∧
    (∀ m : Nat,
      (composeSteps (maxWidth imgs * colC) (rowCountOf imgs.length colC) colC order
        (imgs.enum.take m)
        (backgroundPixels (maxWidth imgs * colC *
          (maxHeight imgs * rowCountOf imgs.length colC)))).length =
      maxWidth imgs * colC * (maxHeight imgs * rowCountOf imgs.length colC) * 4) ∧
    (compose imgs colC order).pixels.length =
      (compose imgs colC order).width * (compose imgs colC order).height * 4 := by
  have hbound : ∀ i, ∀ hi : i < imgs.length, ∀ y, y < (imgs.get ⟨i, hi⟩).height →
      tileDestStart (maxWidth imgs * colC) (imgs.get ⟨i, hi⟩).width
          (imgs.get ⟨i, hi⟩).height
          (rowIndexOf order (rowCountOf imgs.length colC) colC i)
          (columnIndexOf colC i) y + (imgs.get ⟨i, hi⟩).width * 4 ≤
        maxWidth imgs * colC * (maxHeight imgs * rowCountOf imgs.length colC) * 4 := by
    intro i hi y hy
    exact tileDestStart_bound (maxWidth imgs) (maxHeight imgs) colC
      (rowCountOf imgs.length colC) (imgs.get ⟨i, hi⟩).width
      (imgs.get ⟨i, hi⟩).height _ _ y hc
      (width_le_maxWidth imgs _ (imgs.get_mem i hi))
      (height_le_maxHeight imgs _ (imgs.get_mem i hi))
      (rowIndexOf_lt order imgs.length colC i hc hi)
      (columnIndexOf_lt colC i hc) hy
  have hbuflen : (backgroundPixels (maxWidth imgs * colC *
      (maxHeight imgs * rowCountOf imgs.length colC))).length =
      maxWidth imgs * colC * (maxHeight imgs * rowCountOf imgs.length colC) * 4 := by
    rw [backgroundPixels_length]
    ring
  have hpairbound : ∀ p ∈ imgs.enum, ∀ y, y < p.2.height →
      tileDestStart (maxWidth imgs * colC) p.2.width p.2.height
          (rowIndexOf order (rowCountOf imgs.length colC) colC p.1)
          (columnIndexOf colC p.1) y + p.2.width * 4 ≤
        maxWidth imgs * colC * (maxHeight imgs * rowCountOf imgs.length colC) * 4 := by
    intro p hp y hy
    have hg : imgs[p.1]? = some p.2 := List.mem_enum_iff_getElem?.mp hp
    have hlt : p.1 < imgs.length := by
      by_contra hcon
      rw [List.getElem?_eq_none (by omega)] at hg
      exact Option.noConfusion hg
    have hmem : p.2 ∈ imgs := by
      have hge := List.getElem?_eq_getElem hlt
      rw [hge] at hg
      have heq : imgs[p.1] = p.2 := Option.some.inj hg
      rw [← heq]
      exact List.getElem_mem hlt
    exact tileDestStart_bound (maxWidth imgs) (maxHeight imgs) colC
      (rowCountOf imgs.length colC) p.2.width p.2.height _ _ y hc
      (width_le_maxWidth imgs _ hmem) (height_le_maxHeight imgs _ hmem)
      (rowIndexOf_lt order imgs.length colC p.1 hc hlt)
      (columnIndexOf_lt colC p.1 hc) hy
  refine ⟨hbound, ?_, ?_⟩
  · intro m
    exact composeSteps_length _ _ _ _ _ _ _ hbuflen
      (fun p hp => hpairbound p (List.mem_of_mem_take hp))
  · show (composeSteps (maxWidth imgs * colC) (rowCountOf imgs.length colC) colC order
      imgs.enum (backgroundPixels (maxWidth imgs * colC *
        (maxHeight imgs * rowCountOf imgs.length colC)))).length =
      maxWidth imgs * colC * (maxHeight imgs * rowCountOf imgs.length colC) * 4
    exact composeSteps_length _ _ _ _ _ _ _ hbuflen hpairbound

theorem C10_slice_writes_safe_witness :
    (∀ img ∈ ([⟨1, 1, ([1, 2, 3, 4] : Pixels)⟩] : List SourceImage),
      img.pixels.length = img.width * img.height * 4) ∧
    (compose [⟨1, 1, ([1, 2, 3, 4] : Pixels)⟩] 2 RowOrder.topToBottom).pixels.length =
      (compose [⟨1, 1, ([1, 2, 3, 4] : Pixels)⟩] 2 RowOrder.topToBottom).width *
        (compose [⟨1, 1, ([1, 2, 3, 4] : Pixels)⟩] 2 RowOrder.topToBottom).height * 4 := by
  have h := C10_slice_writes_safe [⟨1, 1, ([1, 2, 3, 4] : Pixels)⟩] 2
    RowOrder.topToBottom (by omega) (by decide)
  exact ⟨by decide, h.2.2⟩
